import Mathlib

/-!
# Verification of `conjuring` task-runner helpers

Shallow embedding of the parts of the `conjuring` repository
(`src/conjuring/grimoire.py`, `src/conjuring/visibility.py`,
`src/conjuring/spells/paperless.py`) that the frozen claims are about.

Python strings are Lean `String`s (or `List Char` where index arithmetic is
needed), Python `Path` objects are either plain name strings or lists of path
components, the filesystem and the environment are passed in explicitly as
functions, and fallible Python code returns `Except`/`Option`.
-/

namespace Conjuring

/-! ## Python string primitives -/

/-- The characters Python's `str.strip()` removes (`str.isspace` for ASCII). -/
def pySpaceChars : List Char := [' ', '\t', '\n', '\r', '\x0b', '\x0c']

/-- Is `c` one of Python's whitespace characters? -/
def isPySpace (c : Char) : Bool := pySpaceChars.contains c

/-- Python `s.strip()`: drop leading and trailing whitespace. -/
def pyStrip (s : String) : String :=
  ⟨((s.data.dropWhile isPySpace).reverse.dropWhile isPySpace).reverse⟩

/-- Python truthiness of `s.strip()` as used in `join_pieces`:
`bool(s.strip())` is `True` iff some character of `s` is not whitespace. -/
def strip_truthy (s : String) : Bool := s.data.any (fun c => !(isPySpace c))

/-! ## `grimoire.join_pieces`

Python source:
`return " ".join(str(piece) for piece in pieces if str(piece).strip())`
(`str(piece)` is the identity here: every call site passes strings). -/

def join_pieces (pieces : List String) : String :=
  " ".intercalate (pieces.filter strip_truthy)

/-! ## `grimoire.run_command` / `grimoire.run_stdout` (claim C5)

`invoke`'s `Context.run` executes a shell command; on a non-zero exit code it
raises `UnexpectedExit` unless `warn=True` was passed.  The shell itself is
modelled as a function from the command string to its exit code and stdout.
The `hide`/`pty`/`dry` kwargs only affect presentation and echoing, not the
control flow modelled here; their `setdefault` bookkeeping is still mirrored
so the embedding matches the source line by line. -/

/-- What the shell returns for one command. -/
structure CmdOutcome where
  exited : Nat
  stdout : String

/-- The shell: command string to outcome. -/
def Shell : Type := String → CmdOutcome

/-- `invoke.Result`, restricted to the fields the repository reads. -/
structure InvokeResult where
  command : String
  exited : Nat
  stdout : String
deriving DecidableEq

/-- `invoke.Result.failed`: non-zero exit code. -/
def InvokeResult.failed (r : InvokeResult) : Bool := r.exited != 0

/-- The exception `invoke` raises on a non-zero exit when `warn` is unset. -/
inductive UnexpectedExit where
  | mk (command : String) (exited : Nat)
deriving DecidableEq

/-- The keyword arguments of `Context.run` that the repository manipulates.
`none` means "the caller did not pass this kwarg". -/
structure RunKw where
  warn : Option Bool
  hide : Option Bool
  pty : Option Bool
  dry : Option Bool

/-- `invoke.Context.run`: run the command; raise `UnexpectedExit` when the
exit code is non-zero and `warn` is false. -/
def contextRun (sh : Shell) (cmd : String) (warn : Bool) :
    Except UnexpectedExit InvokeResult :=
  let out := sh cmd
  if out.exited ≠ 0 ∧ warn = false then
    .error (.mk cmd out.exited)
  else
    .ok ⟨cmd, out.exited, out.stdout⟩

/-- `grimoire.run_command`: build the command with `join_pieces`, default
`warn` to `False` (`kwargs.setdefault("warn", False)`) and `hide` to `False`,
then call `c.run`. -/
def run_command (sh : Shell) (pieces : List String) (kw : RunKw) :
    Except UnexpectedExit InvokeResult :=
  let warnEff := kw.warn.getD false
  let _hideEff := kw.hide.getD false
  contextRun sh (join_pieces pieces) warnEff

/-- `grimoire.run_stdout`: `hide` defaults to `True`, `pty` to `False`, and
`warn` is overwritten with `True` (`kwargs["warn"] = True`); on a failed
result it prints an error and returns `""`, otherwise the stripped stdout. -/
def run_stdout (sh : Shell) (pieces : List String) (kw : RunKw) :
    Except UnexpectedExit String :=
  let kw2 : RunKw := ⟨some true, some (kw.hide.getD true), some (kw.pty.getD false), kw.dry⟩
  match run_command sh pieces kw2 with
  | .error e => .error e
  | .ok r => .ok (if r.failed then "" else pyStrip r.stdout)

/-! ## `grimoire.lazy_env_variable` and the paperless helpers (claim C6) -/

/-- The Python exceptions these code paths can raise. -/
inductive PyExc where
  | systemExit
  | runtimeError (msg : String)
  | fileNotFoundError (msg : String)
deriving DecidableEq

/-- The process environment: variable name to value. -/
def Env : Type := String → Option String

/-- The pieces of the filesystem the paperless helpers look at. -/
structure PyFs where
  pathExists : String → Bool
  expanduser : String → String

/-- `grimoire.lazy_env_variable`: return `os.environ[variable]`; on `KeyError`
print an error and raise `SystemExit`. -/
def lazy_env_variable (env : Env) (varName : String) (_description : String) :
    Except PyExc String :=
  match env varName with
  | some v => .ok v
  | none => .error .systemExit

/-- `paperless.paperless_cmd`: read `PAPERLESS_COMPOSE_YAML`, expand the user
directory, raise `FileNotFoundError` when the compose file does not exist,
otherwise build the `docker compose` command string. -/
def paperless_cmd (env : Env) (fs : PyFs) (instanceName : String) :
    Except PyExc String :=
  match lazy_env_variable env "PAPERLESS_COMPOSE_YAML"
      "path to the Paperless Docker compose YAML file" with
  | .error e => .error e
  | .ok value =>
    let yamlFile := fs.expanduser value
    if fs.pathExists yamlFile = false then
      .error (.fileNotFoundError ("Paperless compose YAML file doesn't exist: " ++ yamlFile))
    else
      let suffix := if instanceName ≠ "" then "_" ++ instanceName else ""
      .ok ("docker compose -f " ++ yamlFile ++ " exec webserver" ++ suffix)

/-- `paperless.paperless_root_dir`: read `PAPERLESS_ROOT_DIR`, append
`paperless_<instance>`, raise `FileNotFoundError` when the directory does not
exist. -/
def paperless_root_dir (env : Env) (fs : PyFs) (instanceName : String) :
    Except PyExc String :=
  match lazy_env_variable env "PAPERLESS_ROOT_DIR" "root directory for Paperless" with
  | .error e => .error e
  | .ok value =>
    let subdir := "paperless_" ++ instanceName
    let rootDir := fs.expanduser value ++ "/" ++ subdir
    if fs.pathExists rootDir = false then
      .error (.fileNotFoundError ("Paperless root directory doesn't exist: " ++ rootDir))
    else
      .ok rootDir

/-- The fail-fast head of `paperless.sanity`: compute
`paperless_root_dir(instance) / "media/documents"` and raise `RuntimeError`
when that directory does not exist (a `Path` is always truthy, so the
`documents_dir and` guard in the source never short-circuits). -/
def sanity_documents_dir (env : Env) (fs : PyFs) (instanceName : String) :
    Except PyExc String :=
  match paperless_root_dir env fs instanceName with
  | .error e => .error e
  | .ok rootDir =>
    let documentsDir := rootDir ++ "/media/documents"
    if fs.pathExists documentsDir = false then
      .error (.runtimeError ("Documents directory doesn't exist: " ++ documentsDir))
    else
      .ok documentsDir

/-- Claim-side predicate for C6: the computation raised, and the exception
raised is `SystemExit` or `RuntimeError`. -/
def raised_system_exit_or_runtime_error (r : Except PyExc String) : Bool :=
  match r with
  | .error .systemExit => true
  | .error (.runtimeError _) => true
  | _ => false

/-- A concrete environment for the C6 counterexample: only the compose-file
variable is set. -/
def envComposeOnly : Env := fun v =>
  if v = "PAPERLESS_COMPOSE_YAML" then some "compose.yml" else none

/-- A concrete filesystem for the C6 counterexample: nothing exists. -/
def fsNothing : PyFs := ⟨fun _ => false, fun s => s⟩

/-! ## Theorems about `join_pieces` (claim C10) -/

theorem pyStrip_eq_empty_iff (s : String) :
    pyStrip s = "" ↔ strip_truthy s = false := by
  unfold pyStrip strip_truthy
  rw [show ("" : String) = ⟨[]⟩ from rfl]
  constructor
  · intro h
    have h2 : ((s.data.dropWhile isPySpace).reverse.dropWhile isPySpace).reverse = [] := by
      have := congrArg String.data h
      simpa using this
    rw [List.reverse_eq_nil_iff, List.dropWhile_eq_nil_iff] at h2
    rw [List.any_eq_false]
    intro c hc
    simp only [Bool.not_eq_true, Bool.not_eq_false]
    rcases List.takeWhile_append_dropWhile (p := isPySpace) (l := s.data) ▸ hc with h3
    have hc' : c ∈ s.data.takeWhile isPySpace ++ s.data.dropWhile isPySpace := by
      rwa [List.takeWhile_append_dropWhile]
    rcases List.mem_append.mp hc' with h4 | h4
    · simp [List.mem_takeWhile_imp h4]
    · simp [h2 c (List.mem_reverse.mpr h4)]
  · intro h
    rw [List.any_eq_false] at h
    have hall : ∀ c ∈ s.data, isPySpace c = true := by
      intro c hc
      have := h c hc
      simpa using this
    have h1 : s.data.dropWhile isPySpace = [] :=
      List.dropWhile_eq_nil_iff.mpr fun c hc => hall c hc
    rw [h1]
    rfl

theorem filter_pyStrip_eq_filter_truthy (pieces : List String) :
    pieces.filter (fun p => pyStrip p ≠ "") = pieces.filter strip_truthy := by
  apply List.filter_congr
  intro p _
  rcases h : strip_truthy p with _ | _
  · simp [(pyStrip_eq_empty_iff p).mpr h]
  · have : ¬ pyStrip p = "" := by
      intro hc
      rw [(pyStrip_eq_empty_iff p).mp hc] at h
      cases h
    simp [this]

/-- C10: `join_pieces` joins with a single space exactly the pieces that are
non-empty after stripping whitespace; blank pieces are identity elements at
any position, and a call with no pieces or only blank pieces returns `""`. -/
theorem join_pieces_spec :
    (∀ pieces : List String,
      join_pieces pieces = " ".intercalate (pieces.filter (fun p => pyStrip p ≠ ""))) ∧
    (∀ (xs ys : List String) (b : String), pyStrip b = "" →
      join_pieces (xs ++ b :: ys) = join_pieces (xs ++ ys)) ∧
    join_pieces [] = "" ∧
    (∀ pieces : List String, (∀ p ∈ pieces, pyStrip p = "") → join_pieces pieces = "") := by
  refine ⟨?_, ?_, rfl, ?_⟩
  · intro pieces
    rw [join_pieces, filter_pyStrip_eq_filter_truthy]
  · intro xs ys b hb
    have hb' : strip_truthy b = false := (pyStrip_eq_empty_iff b).mp hb
    simp [join_pieces, List.filter_append, List.filter_cons, hb']
  · intro pieces hall
    have : pieces.filter strip_truthy = [] := by
      rw [List.filter_eq_nil_iff]
      intro p hp
      rw [(pyStrip_eq_empty_iff p).mp (hall p hp)]
      simp
    rw [join_pieces, this]
    rfl

theorem join_pieces_spec_witness :
    join_pieces ["a", " \t", "b"] = join_pieces ["a", "b"] ∧
    join_pieces [" ", ""] = "" :=
  ⟨join_pieces_spec.2.1 ["a"] ["b"] " \t" (by decide),
   join_pieces_spec.2.2.2 [" ", ""] (by decide)⟩

/-! ## Theorems about `run_command` / `run_stdout` (claim C5) -/

/-- C5: `run_command` raises exactly when the exit code is non-zero and the
`warn` kwarg was not set (it defaults to `False`), and `run_stdout` — the
helper that suppresses failures — does so by forcing `warn=True`, so it never
propagates `UnexpectedExit`. -/
theorem run_command_warn_spec :
    (∀ (sh : Shell) (pieces : List String) (kw : RunKw),
      (∃ e, run_command sh pieces kw = .error e) ↔
        ((sh (join_pieces pieces)).exited ≠ 0 ∧ kw.warn.getD false = false)) ∧
    (∀ (sh : Shell) (pieces : List String) (kw : RunKw) (e : UnexpectedExit),
      run_stdout sh pieces kw ≠ .error e) := by
  constructor
  · intro sh pieces kw
    unfold run_command contextRun
    constructor
    · rintro ⟨e, he⟩
      by_contra hc
      rw [if_neg hc] at he
      cases he
    · intro h
      rw [if_pos h]
      exact ⟨_, rfl⟩
  · intro sh pieces kw e
    unfold run_stdout run_command contextRun
    simp

theorem run_command_warn_spec_witness :
    (∃ e, run_command (fun _ => ⟨1, "boom"⟩) ["false"] ⟨none, none, none, none⟩ = .error e) ∧
    run_stdout (fun _ => ⟨1, "boom"⟩) ["false"] ⟨none, none, none, none⟩ ≠
      .error (.mk "false" 1) :=
  ⟨(run_command_warn_spec.1 (fun _ => ⟨1, "boom"⟩) ["false"] ⟨none, none, none, none⟩).mpr
      (by constructor <;> decide),
   run_command_warn_spec.2 (fun _ => ⟨1, "boom"⟩) ["false"] ⟨none, none, none, none⟩
      (.mk "false" 1)⟩

/-! ## Theorems about missing env variables and files (claim C6) -/

/-- C6 counterexample: with `PAPERLESS_COMPOSE_YAML` set to a file that does
not exist, `paperless_cmd` raises `FileNotFoundError`, which is neither
`SystemExit` nor `RuntimeError`; the claim that every such failure raises
`SystemExit` or `RuntimeError` is false. -/
theorem paperless_cmd_raises_file_not_found :
    paperless_cmd envComposeOnly fsNothing "" =
      .error (.fileNotFoundError "Paperless compose YAML file doesn't exist: compose.yml") ∧
    raised_system_exit_or_runtime_error (paperless_cmd envComposeOnly fsNothing "") = false := by
  constructor <;> rfl

/-- C6 (amended): a missing required environment variable raises `SystemExit`
(via `lazy_env_variable`); a missing compose file or Paperless root directory
raises `FileNotFoundError`; a missing documents directory raises
`RuntimeError` in `sanity`. -/
theorem missing_env_or_file_spec :
    (∀ (env : Env) (v d : String), env v = none →
      lazy_env_variable env v d = .error .systemExit) ∧
    (∀ (env : Env) (fs : PyFs) (inst val : String),
      env "PAPERLESS_COMPOSE_YAML" = some val →
      fs.pathExists (fs.expanduser val) = false →
      paperless_cmd env fs inst =
        .error (.fileNotFoundError
          ("Paperless compose YAML file doesn't exist: " ++ fs.expanduser val))) ∧
    (∀ (env : Env) (fs : PyFs) (inst val : String),
      env "PAPERLESS_ROOT_DIR" = some val →
      fs.pathExists (fs.expanduser val ++ "/" ++ ("paperless_" ++ inst)) = false →
      paperless_root_dir env fs inst =
        .error (.fileNotFoundError
          ("Paperless root directory doesn't exist: " ++
            (fs.expanduser val ++ "/" ++ ("paperless_" ++ inst))))) ∧
    (∀ (env : Env) (fs : PyFs) (inst val : String),
      env "PAPERLESS_ROOT_DIR" = some val →
      fs.pathExists (fs.expanduser val ++ "/" ++ ("paperless_" ++ inst)) = true →
      fs.pathExists (fs.expanduser val ++ "/" ++ ("paperless_" ++ inst) ++ "/media/documents")
        = false →
      sanity_documents_dir env fs inst =
        .error (.runtimeError
          ("Documents directory doesn't exist: " ++
            (fs.expanduser val ++ "/" ++ ("paperless_" ++ inst) ++ "/media/documents")))) := by
  refine ⟨?_, ?_, ?_, ?_⟩
  · intro env v d h
    unfold lazy_env_variable
    rw [h]
  · intro env fs inst val hv hf
    unfold paperless_cmd lazy_env_variable
    rw [hv]
    simp [hf]
  · intro env fs inst val hv hf
    unfold paperless_root_dir lazy_env_variable
    rw [hv]
    simp [hf]
  · intro env fs inst val hv hroot hdocs
    unfold sanity_documents_dir paperless_root_dir lazy_env_variable
    rw [hv]
    simp [hroot, hdocs]

/-- A concrete environment where both paperless variables are set. -/
def envBothPaperless : Env := fun v =>
  if v = "PAPERLESS_COMPOSE_YAML" then some "compose.yml"
  else if v = "PAPERLESS_ROOT_DIR" then some "root" else none

/-- A concrete filesystem where only the paperless root directory exists. -/
def fsRootOnly : PyFs := ⟨fun p => p = "root/paperless_x", fun s => s⟩

theorem missing_env_or_file_spec_witness :
    lazy_env_variable envComposeOnly "PAPERLESS_ROOT_DIR" "d" = .error .systemExit ∧
    paperless_cmd envBothPaperless fsRootOnly "" =
      .error (.fileNotFoundError "Paperless compose YAML file doesn't exist: compose.yml") ∧
    paperless_root_dir envComposeOnly fsNothing "x" = .error .systemExit ∧
    sanity_documents_dir envBothPaperless fsRootOnly "x" =
      .error (.runtimeError
        "Documents directory doesn't exist: root/paperless_x/media/documents") :=
  ⟨missing_env_or_file_spec.1 envComposeOnly "PAPERLESS_ROOT_DIR" "d" (by decide),
   missing_env_or_file_spec.2.1 envBothPaperless fsRootOnly "" "compose.yml"
     (by decide) (by decide),
   rfl,
   missing_env_or_file_spec.2.2.2 envBothPaperless fsRootOnly "x" "root"
     (by decide) (by decide) (by decide)⟩

/-! ## `fnmatch`-style glob matching (used by `_is_task_present`, claim C8)

Python's `fnmatch.fnmatch(name, pattern)` (POSIX: `normcase` is the
identity): `*` matches any sequence, `?` any single character, `[seq]` a
character class (leading `!` negates, a `]` right after the opening bracket
or after `!` is a literal, `a-b` is a range, an unterminated `[` is a
literal `[`).  The matcher is written with explicit fuel so that it is
structural and kernel-computable; `pattern.length + name.length + 1` steps
always suffice because every recursive call consumes at least one character
of the pattern or of the name. -/

/-- Scan a character class for its closing `]`, returning the class body and
the remainder of the pattern; `none` when the class is unterminated. -/
def extractClassAux : List Char → Option (List Char × List Char)
  | [] => none
  | c :: r =>
    if c = ']' then some ([], r)
    else
      match extractClassAux r with
      | some (cls, rest) => some (c :: cls, rest)
      | none => none

/-- Parse the text following `[`: an optional `!`, an optional literal `]`,
then the class body up to the closing `]`. -/
def extractClass (ps : List Char) : Option (Bool × List Char × List Char) :=
  match ps with
  | '!' :: ']' :: r2 => (extractClassAux r2).map (fun p => (true, ']' :: p.1, p.2))
  | '!' :: rest => (extractClassAux rest).map (fun p => (true, p.1, p.2))
  | ']' :: r2 => (extractClassAux r2).map (fun p => (false, ']' :: p.1, p.2))
  | _ => (extractClassAux ps).map (fun p => (false, p.1, p.2))

/-- Membership of a character in a class body (with `a-b` ranges). -/
def classMember : List Char → Char → Bool
  | a :: '-' :: b :: rest, c => (a ≤ c && c ≤ b) || classMember rest c
  | a :: rest, c => (a = c) || classMember rest c
  | [], _ => false

/-- Fuelled glob matcher: `globMatchFuel fuel pattern name`. -/
def globMatchFuel : Nat → List Char → List Char → Bool
  | 0, _, _ => false
  | _ + 1, [], name => name.isEmpty
  | fuel + 1, '*' :: ps, name =>
    match name with
    | [] => globMatchFuel fuel ps []
    | _ :: cs => globMatchFuel fuel ps name || globMatchFuel fuel ('*' :: ps) cs
  | fuel + 1, '?' :: ps, name =>
    match name with
    | [] => false
    | _ :: cs => globMatchFuel fuel ps cs
  | fuel + 1, '[' :: ps, name =>
    match extractClass ps with
    | some (neg, cls, rest) =>
      match name with
      | [] => false
      | c :: cs => (classMember cls c != neg) && globMatchFuel fuel rest cs
    | none =>
      match name with
      | [] => false
      | c :: cs => (c = '[') && globMatchFuel fuel ps cs
  | fuel + 1, p :: ps, name =>
    match name with
    | [] => false
    | c :: cs => (p = c) && globMatchFuel fuel ps cs

/-- `fnmatch.fnmatch(name, pattern)`. -/
def fnmatch (name pattern : String) : Bool :=
  globMatchFuel (pattern.length + name.length + 1) pattern.data name.data

/-! ## `grimoire.slugify`, `guess_full_task_name`, `_is_task_present` -/

/-- Python `s.replace(a, b)` for single characters. -/
def pyReplaceChar (s : String) (a b : Char) : String :=
  ⟨s.data.map fun c => if c = a then b else c⟩

/-- `grimoire.slugify`: `name.replace(".", "_")`. -/
def slugify (name : String) : String := pyReplaceChar name '.' '_'

/-- `grimoire.guess_full_task_name`: slugify, replace `_` with `-`, and put
the prefix (when truthy) in front with a dot. -/
def guess_full_task_name (pfx : Option String) (name : String) : String :=
  let formatted := pyReplaceChar (slugify name) '_' '-'
  match pfx with
  | some p => if p ≠ "" then p ++ "." ++ formatted else formatted
  | none => formatted

/-- Python truthiness of an optional list: `not list_` is true for `None`
and for the empty list. -/
def noneOrEmpty (l : Option (List String)) : Bool :=
  match l with
  | none => true
  | some [] => true
  | some (_ :: _) => false

/-- `grimoire._is_task_present`: `True` for a falsy list, otherwise whether
any pattern of the list fnmatch-matches the name. -/
def is_task_present (name : String) (list_ : Option (List String)) : Bool :=
  if noneOrEmpty list_ then true
  else (list_.getD []).any (fun element => fnmatch name element)

/-! ## Tasks and collections (invoke's data model, as used by the claims)

A task carries the attributes `magically_add_tasks` reads off it: its name,
its defining module's dotted name (`t.__module__`), whether it is a
`MagicTask`, and — when it is one — the result of its `should_display()`
predicate.  A collection is a dict of tasks plus a dict of flat
sub-collections, both insertion-ordered.  `Collection.add_task` is modelled
as plain dict assignment under the given (or the task's own) name; invoke's
underscore-to-dash name transformation and its name-conflict `ValueError`s
for `add_task` are outside the model, while the task-name conflict of
`add_collection` is modelled because `magically_add_tasks` explicitly
catches it. -/

structure PyTask where
  name : String
  modName : String
  isMagic : Bool
  magicShouldDisplay : Bool
deriving DecidableEq

structure SubCollection where
  tasks : List (String × PyTask)
deriving DecidableEq

structure Collection where
  tasks : List (String × PyTask)
  collections : List (String × SubCollection)
deriving DecidableEq

/-- Python dict assignment `d[k] = v` on an insertion-ordered assoc list:
overwrite in place, or append. -/
def dictSet {α : Type} : List (String × α) → String → α → List (String × α)
  | [], k, v => [(k, v)]
  | (k', v') :: rest, k, v =>
    if k' = k then (k, v) :: rest else (k', v') :: dictSet rest k v

/-- Python `k in d` on an assoc list. -/
def dictHas {α : Type} (l : List (String × α)) (k : String) : Bool :=
  l.any (fun p => p.1 = k)

/-- `invoke.Collection.add_task(task, name)`: store the task under `name`
(or under `task.name` when no name is given). -/
def Collection.add_task (c : Collection) (t : PyTask) (taskName : Option String) : Collection :=
  { c with tasks := dictSet c.tasks (taskName.getD t.name) t }

/-- `SubCollection.add_task`, same semantics. -/
def SubCollection.add_task (c : SubCollection) (t : PyTask) (taskName : Option String) :
    SubCollection :=
  ⟨dictSet c.tasks (taskName.getD t.name) t⟩

/-! ## `grimoire.add_single_task_to` (claim C8) -/

/-- `grimoire.add_single_task_to`: guess the full task name, apply the
include/exclude fnmatch filters, and add the task (returning `True`) only
when the filters pass. -/
def add_single_task_to (c : Collection) (t : PyTask)
    (includes excludes : Option (List String))
    (pfx : Option String) (taskName : Option String) : Collection × Bool :=
  let guessedName := guess_full_task_name pfx t.name
  let shouldInclude := noneOrEmpty includes || is_task_present guessedName includes
  let shouldExclude := !(noneOrEmpty excludes) && is_task_present guessedName excludes
  if shouldInclude && !shouldExclude then
    (c.add_task t taskName, true)
  else
    (c, false)

theorem add_single_task_to_snd (c : Collection) (t : PyTask)
    (includes excludes : Option (List String)) (pfx taskName : Option String) :
    (add_single_task_to c t includes excludes pfx taskName).2 =
      ((noneOrEmpty includes ||
          is_task_present (guess_full_task_name pfx t.name) includes) &&
        !(!(noneOrEmpty excludes) &&
          is_task_present (guess_full_task_name pfx t.name) excludes)) := by
  unfold add_single_task_to
  dsimp only
  split
  next h => simp_all
  next h => simp_all

/-- C8: `add_single_task_to` adds the task and returns `True` exactly when
the guessed full task name passes both filters (a `None` or empty include
list admits everything, and a matching exclude pattern always wins); on
rejection the collection is returned unchanged with `False`. -/
theorem add_single_task_to_spec :
    ∀ (c : Collection) (t : PyTask) (includes excludes : Option (List String))
      (pfx taskName : Option String),
      ((add_single_task_to c t includes excludes pfx taskName).2 = true ↔
        ((includes = none ∨ includes = some [] ∨
            ∃ pat ∈ includes.getD [],
              fnmatch (guess_full_task_name pfx t.name) pat = true) ∧
         (excludes = none ∨ excludes = some [] ∨
            ∀ pat ∈ excludes.getD [],
              fnmatch (guess_full_task_name pfx t.name) pat = false))) ∧
      ((add_single_task_to c t includes excludes pfx taskName).2 = true →
        (add_single_task_to c t includes excludes pfx taskName).1 =
          c.add_task t taskName) ∧
      ((add_single_task_to c t includes excludes pfx taskName).2 = false →
        (add_single_task_to c t includes excludes pfx taskName).1 = c) := by
  intro c t includes excludes pfx taskName
  refine ⟨?_, ?_, ?_⟩
  · rw [add_single_task_to_snd]
    have hA : (noneOrEmpty includes ||
        is_task_present (guess_full_task_name pfx t.name) includes) = true ↔
        (includes = none ∨ includes = some [] ∨
          ∃ pat ∈ includes.getD [],
            fnmatch (guess_full_task_name pfx t.name) pat = true) := by
      cases includes with
      | none => simp [noneOrEmpty]
      | some l =>
        cases l with
        | nil => simp [noneOrEmpty]
        | cons x xs => simp [noneOrEmpty, is_task_present, List.any_eq_true]
    have hB : (!(noneOrEmpty excludes) &&
        is_task_present (guess_full_task_name pfx t.name) excludes) = false ↔
        (excludes = none ∨ excludes = some [] ∨
          ∀ pat ∈ excludes.getD [],
            fnmatch (guess_full_task_name pfx t.name) pat = false) := by
      cases excludes with
      | none => simp [noneOrEmpty]
      | some l =>
        cases l with
        | nil => simp [noneOrEmpty]
        | cons x xs =>
          simp [noneOrEmpty, is_task_present, List.any_eq_false]
    rw [Bool.and_eq_true, Bool.not_eq_true', hA, hB]
  · unfold add_single_task_to
    dsimp only
    split
    · intro _; rfl
    · intro h; cases h
  · unfold add_single_task_to
    dsimp only
    split
    · intro h; cases h
    · intro _; rfl

/-- A concrete task for the C8 witness. -/
def sampleTask : PyTask := ⟨"deploy", "spells.mod", false, true⟩

theorem add_single_task_to_spec_witness :
    ((add_single_task_to ⟨[], []⟩ sampleTask (some ["de*"]) (some ["*x"]) none none).1 =
      Collection.add_task ⟨[], []⟩ sampleTask none ∧
     (add_single_task_to ⟨[], []⟩ sampleTask (some ["de*"]) (some ["*x"]) none none).2 = true) ∧
    ((add_single_task_to ⟨[], []⟩ sampleTask (some ["z*"]) none none none).1 = ⟨[], []⟩ ∧
     (add_single_task_to ⟨[], []⟩ sampleTask (some ["z*"]) none none none).2 = false) :=
  ⟨⟨(add_single_task_to_spec ⟨[], []⟩ sampleTask (some ["de*"]) (some ["*x"]) none none).2.1
      (by decide),
    (add_single_task_to_spec ⟨[], []⟩ sampleTask (some ["de*"]) (some ["*x"]) none none).1.mpr
      (by decide)⟩,
   ⟨(add_single_task_to_spec ⟨[], []⟩ sampleTask (some ["z*"]) none none none).2.2
      (by decide),
    by decide⟩⟩

/-! ## Modules and `magically_add_tasks` (claims C1, C2, C3)

A Python module, as `magically_add_tasks` sees it: its dotted `__name__`,
the truthiness of its `SHOULD_PREFIX` attribute (`getattr(..., False)`),
the result of its `should_display_tasks()` function (`none` when the module
does not define one), and the tasks `Collection.from_module` collects from
it.  `import_module` is deterministic, so it is modelled as a function
`imp : String → PyModule` from dotted names to modules; module ignoring via
`CONJURING_IGNORE_MODULES` is not modelled (the variable defaults to `""`,
which ignores nothing, so `resolve_module_str` returns the module itself). -/

structure PyModule where
  name : String
  shouldPfx : Bool
  shouldDisplayTasks : Option Bool
  tasks : List PyTask
deriving DecidableEq

/-- `visibility.display_task`: a `MagicTask` consults its own
`should_display()` predicate; a plain task uses the module flag. -/
def display_task (t : PyTask) (moduleFlag : Bool) : Bool :=
  if t.isMagic then t.magicShouldDisplay else moduleFlag

/-- `module.__name__.split(".")[-1]`: everything after the last dot (the
whole name when there is no dot). -/
def lastComponent (s : String) : String :=
  ⟨(s.data.reverse.takeWhile (fun c => c ≠ '.')).reverse⟩

/-- `grimoire.PrefixedSpellbook` (the module object is stored by name). -/
structure PrefixedSpellbook where
  pfx : String
  modName : String
  displayAllTasks : Bool
deriving DecidableEq

/-- `defaultdict(list)` append: `d[k].append(v)`. -/
def dictAppend {α : Type} : List (String × List α) → String → α → List (String × List α)
  | [], k, v => [(k, [v])]
  | (k', vs) :: rest, k, v =>
    if k' = k then (k', vs ++ [v]) :: rest else (k', vs) :: dictAppend rest k v

/-- The `ValueError` of `invoke.Collection.add_collection` that
`magically_add_tasks` catches by its "this collection has a task name"
message (the only `ValueError` this call can raise in the model). -/
inductive AddCollectionErr where
  | taskNameConflict (name : String)
deriving DecidableEq

/-- `invoke.Collection.add_collection(coll, name)`: raise the task-name
conflict `ValueError` when a task with that name exists, otherwise store the
sub-collection under the name (dict assignment). -/
def Collection.add_collection (c : Collection) (sub : SubCollection) (name : String) :
    Except AddCollectionErr Collection :=
  if dictHas c.tasks name then
    .error (.taskNameConflict name)
  else
    .ok { c with collections := dictSet c.collections name sub }

/-- `invoke.Collection.from_module`, coerced to a flat sub-collection: every
task of the module under its own name. -/
def subCollectionFromModule (m : PyModule) : SubCollection :=
  ⟨m.tasks.foldl (fun d t => dictSet d t.name t) []⟩

/-- `add_single_task_to` called on the fresh `sub_collection` of the second
loop of `magically_add_tasks` (the same function in the source; the
sub-collection is a plain `invoke.Collection` that only ever receives
tasks). -/
def add_single_task_to_sub (sub : SubCollection) (t : PyTask)
    (includes excludes : Option (List String))
    (pfx : Option String) (taskName : Option String) : SubCollection × Bool :=
  let guessedName := guess_full_task_name pfx t.name
  let shouldInclude := noneOrEmpty includes || is_task_present guessedName includes
  let shouldExclude := !(noneOrEmpty excludes) && is_task_present guessedName excludes
  if shouldInclude && !shouldExclude then
    (sub.add_task t taskName, true)
  else
    (sub, false)

/-- The body of the first loop of `magically_add_tasks`: route prefixed
tasks into the spell-book dict, drop hidden tasks, and add the rest to the
collection, suffixing the name on a collision (`resolved_module` is never
`None` in the model, so the `and resolved_module` guard is true). -/
def magicFirstLoop (imp : String → PyModule) (modName : String)
    (includes excludes : Option (List String))
    (st : Collection × List (String × List PrefixedSpellbook)) (t : PyTask) :
    Collection × List (String × List PrefixedSpellbook) :=
  let taskModule := imp t.modName
  let displayAllTasks := taskModule.shouldDisplayTasks.getD true
  if taskModule.shouldPfx then
    let pfx := lastComponent taskModule.name
    (st.1, dictAppend st.2 pfx ⟨pfx, taskModule.name, displayAllTasks⟩)
  else if display_task t displayAllTasks = false then
    st
  else if dictHas st.1.tasks t.name then
    let cleanName := slugify modName
    let newTaskName := t.name ++ "-" ++ cleanName
    ((add_single_task_to st.1 t includes excludes none (some newTaskName)).1, st.2)
  else
    ((add_single_task_to st.1 t includes excludes none none).1, st.2)

/-- The fresh sub-collection built for one spell book in the second loop of
`magically_add_tasks`: the visible tasks of the module, filtered by
include/exclude against the prefixed guessed name. -/
def buildSubCollection (imp : String → PyModule) (book : PrefixedSpellbook)
    (includes excludes : Option (List String)) : SubCollection :=
  (imp book.modName).tasks.foldl
    (fun sub t =>
      if display_task t book.displayAllTasks then
        (add_single_task_to_sub sub t includes excludes (some book.pfx) none).1
      else sub)
    ⟨[]⟩

/-- The body of the second loop of `magically_add_tasks` for one spell book:
try `add_collection(sub_collection, prefix)`; on the task-name-conflict
`ValueError`, add the whole module under
`prefix + "_" + slugify(module.__name__)` instead (that fallback's own
failure propagates). -/
def magicSecondLoopBook (imp : String → PyModule)
    (includes excludes : Option (List String)) (pfx : String)
    (acc : Except AddCollectionErr Collection) (book : PrefixedSpellbook) :
    Except AddCollectionErr Collection :=
  match acc with
  | .error e => .error e
  | .ok c =>
    let sub := buildSubCollection imp book includes excludes
    match c.add_collection sub pfx with
    | .ok c2 => .ok c2
    | .error (.taskNameConflict _) =>
      c.add_collection (subCollectionFromModule (imp book.modName))
        (pfx ++ "_" ++ slugify book.modName)

/-- `grimoire.magically_add_tasks`. -/
def magically_add_tasks (imp : String → PyModule) (toCollection : Collection)
    (mod : PyModule) (includes excludes : Option (List String)) :
    Except AddCollectionErr Collection :=
  let first := mod.tasks.foldl (magicFirstLoop imp mod.name includes excludes)
    (toCollection, [])
  first.2.foldl
    (fun acc entry => entry.2.foldl (magicSecondLoopBook imp includes excludes entry.1) acc)
    (.ok first.1)

/-- Full task names of a collection, the way invoke's `task_names` reports
them: top-level task names, plus `prefix.name` for each sub-collection task
(sub-collections are flat in this program). -/
def fullTaskNames (c : Collection) : List String :=
  c.tasks.map (fun p => p.1) ++
    c.collections.flatMap (fun pc => pc.2.tasks.map (fun q => pc.1 ++ "." ++ q.1))

/-! ## `collection_from_python_files` (claim C4)

The filesystem side is abstracted: `glob d pat` is the insertion-ordered
list of files `Path(d).glob(pat)` yields, a file being its inode plus its
stem.  Python's `set(py_glob_patterns)` and `{Path.cwd(), Path.home()}`
iterate in an unspecified order; the model fixes `List.dedup` for the
patterns and cwd-then-home for the directories. -/

structure PyFile where
  inode : Nat
  stem : String
deriving DecidableEq

/-- `search_dirs = {Path.cwd(), Path.home()}`: one directory when the
current directory is the home (root) directory. -/
def searchDirs (cwd home : String) : List String :=
  if cwd = home then [cwd] else [cwd, home]

/-- The files `collection_from_python_files` passes to
`magically_add_tasks`, in order: for each search directory and each distinct
pattern, the glob matches whose inode differs from the loader's own file. -/
def discovered_files (glob : String → String → List PyFile) (cwd home : String)
    (patterns : List String) (currentInode : Nat) : List PyFile :=
  (searchDirs cwd home).flatMap fun d =>
    patterns.dedup.flatMap fun pat =>
      (glob d pat).filter fun f => f.inode ≠ currentInode

/-- `grimoire.collection_from_python_files`: start from an empty collection,
add the tasks of every discovered file's module (imported by stem), then the
tasks of `current_module`. -/
def collection_from_python_files (imp : String → PyModule)
    (glob : String → String → List PyFile) (cwd home : String)
    (patterns : List String) (currentInode : Nat) (currentModule : PyModule)
    (includes excludes : Option (List String)) : Except AddCollectionErr Collection :=
  match (discovered_files glob cwd home patterns currentInode).foldlM
      (fun c f => magically_add_tasks imp c (imp f.stem) includes excludes) ⟨[], []⟩ with
  | .error e => .error e
  | .ok c => magically_add_tasks imp c currentModule includes excludes

/-! ## Theorems about `magically_add_tasks` without a prefix (claims C1, C2) -/

theorem add_single_task_to_no_filters (c : Collection) (t : PyTask)
    (pfx taskName : Option String) :
    add_single_task_to c t none none pfx taskName = (c.add_task t taskName, true) := rfl

/-- The per-task rule claim C1 describes for a module without
`SHOULD_PREFIX`: on a name collision, add under
`name + "-" + module name with dots replaced by underscores`, otherwise add
under the task's own name. -/
def claimSuffixStep (modName : String) (c : Collection) (t : PyTask) : Collection :=
  if dictHas c.tasks t.name then
    c.add_task t (some (t.name ++ "-" ++ pyReplaceChar modName '.' '_'))
  else
    c.add_task t none

theorem magicFirstLoop_nonprefixed (imp : String → PyModule) (modName : String)
    (c : Collection) (bs : List (String × List PrefixedSpellbook)) (t : PyTask)
    (hp : (imp t.modName).shouldPfx = false)
    (hd : display_task t ((imp t.modName).shouldDisplayTasks.getD true) = true) :
    magicFirstLoop imp modName none none (c, bs) t = (claimSuffixStep modName c t, bs) := by
  unfold magicFirstLoop claimSuffixStep
  dsimp only
  simp only [hp, hd, Bool.false_eq_true, Bool.true_eq_false, if_false,
    add_single_task_to_no_filters, slugify]
  split <;> simp_all

theorem foldl_magicFirstLoop_nonprefixed (imp : String → PyModule) (modName : String) :
    ∀ (ts : List PyTask) (c : Collection) (bs : List (String × List PrefixedSpellbook)),
      (∀ t ∈ ts, (imp t.modName).shouldPfx = false) →
      (∀ t ∈ ts, display_task t ((imp t.modName).shouldDisplayTasks.getD true) = true) →
      ts.foldl (magicFirstLoop imp modName none none) (c, bs) =
        (ts.foldl (claimSuffixStep modName) c, bs)
  | [], c, bs, _, _ => rfl
  | t :: ts, c, bs, hp, hd => by
    rw [List.foldl_cons, List.foldl_cons,
      magicFirstLoop_nonprefixed imp modName c bs t (hp t (List.mem_cons_self t ts))
        (hd t (List.mem_cons_self t ts))]
    exact foldl_magicFirstLoop_nonprefixed imp modName ts _ bs
      (fun u hu => hp u (List.mem_cons_of_mem t hu))
      (fun u hu => hd u (List.mem_cons_of_mem t hu))

/-- C1: for a module without `SHOULD_PREFIX` whose tasks are all visible and
with no include/exclude filters, `magically_add_tasks` adds each task under
its own name, except that a task whose name is already taken is added under
`name + "-" + module dotted name with dots replaced by underscores`. -/
theorem magically_add_tasks_collision_suffix (imp : String → PyModule)
    (c : Collection) (m : PyModule)
    (hp : ∀ t ∈ m.tasks, (imp t.modName).shouldPfx = false)
    (hd : ∀ t ∈ m.tasks,
      display_task t ((imp t.modName).shouldDisplayTasks.getD true) = true) :
    magically_add_tasks imp c m none none =
      .ok (m.tasks.foldl (claimSuffixStep m.name) c) := by
  unfold magically_add_tasks
  rw [foldl_magicFirstLoop_nonprefixed imp m.name m.tasks c [] hp hd]
  rfl

/-- A module whose single task collides with an existing task name. -/
def taskBuildNew : PyTask := ⟨"build", "spells.x", false, true⟩

/-- A previously registered task occupying the name `build`. -/
def taskBuildOld : PyTask := ⟨"build", "other", false, true⟩

/-- The module providing `taskBuildNew`. -/
def modX : PyModule := ⟨"spells.x", false, none, [taskBuildNew]⟩

/-- An importer resolving every name to `modX`. -/
def impX : String → PyModule := fun _ => modX

theorem magically_add_tasks_collision_suffix_witness :
    magically_add_tasks impX ⟨[("build", taskBuildOld)], []⟩ modX none none =
      .ok ⟨[("build", taskBuildOld), ("build-spells_x", taskBuildNew)], []⟩ :=
  (magically_add_tasks_collision_suffix impX ⟨[("build", taskBuildOld)], []⟩ modX
    (by decide) (by decide)).trans rfl

/-- The visibility rule claim C2 describes: a `MagicTask` consults only its
own `should_display()`; any other task consults the module's
`should_display_tasks()`, defaulting to visible when the module defines
none. -/
def claimVisible (imp : String → PyModule) (t : PyTask) : Bool :=
  if t.isMagic then t.magicShouldDisplay
  else (imp t.modName).shouldDisplayTasks.getD true

/-- C2: for a single-task module without `SHOULD_PREFIX` and with no
filters, the task is added if and only if `claimVisible` holds — the
`MagicTask` predicate takes precedence and the module flag defaults to
`True`; a hidden task leaves the collection unchanged. -/
theorem magicFirstLoop_hidden (imp : String → PyModule) (modName : String)
    (c : Collection) (bs : List (String × List PrefixedSpellbook)) (t : PyTask)
    (hp : (imp t.modName).shouldPfx = false)
    (hd : display_task t ((imp t.modName).shouldDisplayTasks.getD true) = false) :
    magicFirstLoop imp modName none none (c, bs) t = (c, bs) := by
  unfold magicFirstLoop
  dsimp only
  simp [hp, hd]

theorem magically_add_tasks_visibility (imp : String → PyModule)
    (c : Collection) (m : PyModule) (t : PyTask)
    (hm : m.tasks = [t]) (hp : (imp t.modName).shouldPfx = false) :
    magically_add_tasks imp c m none none =
      .ok (if claimVisible imp t then claimSuffixStep m.name c t else c) := by
  unfold magically_add_tasks
  rw [hm]
  have hdisp : display_task t ((imp t.modName).shouldDisplayTasks.getD true) =
      claimVisible imp t := rfl
  rcases hv : claimVisible imp t with _ | _
  · rw [List.foldl_cons, magicFirstLoop_hidden imp m.name c [] t hp (hdisp.trans hv)]
    rfl
  · rw [List.foldl_cons, magicFirstLoop_nonprefixed imp m.name c [] t hp (hdisp.trans hv)]
    rfl

/-- A magic task whose own predicate hides it. -/
def taskMagicHidden : PyTask := ⟨"secret", "spells.y", true, false⟩

/-- The module providing `taskMagicHidden`, whose module flag would show
every task. -/
def modY : PyModule := ⟨"spells.y", false, some true, [taskMagicHidden]⟩

/-- An importer resolving every name to `modY`. -/
def impY : String → PyModule := fun _ => modY

theorem magically_add_tasks_visibility_witness :
    magically_add_tasks impY ⟨[], []⟩ modY none none = .ok ⟨[], []⟩ :=
  (magically_add_tasks_visibility impY ⟨[], []⟩ modY taskMagicHidden rfl (by decide)).trans
    rfl

/-! ## Theorems about `magically_add_tasks` with `SHOULD_PREFIX` (claim C3) -/

theorem dictSet_idem {α : Type} (l : List (String × α)) (k : String) (v : α) :
    dictSet (dictSet l k v) k v = dictSet l k v := by
  induction l with
  | nil => simp [dictSet]
  | cons p rest ih =>
    by_cases h : p.1 = k
    · simp [dictSet, h]
    · simp [dictSet, h, ih]

theorem mem_dictSet_self {α : Type} (l : List (String × α)) (k : String) (v : α) :
    (k, v) ∈ dictSet l k v := by
  induction l with
  | nil => simp [dictSet]
  | cons p rest ih =>
    by_cases h : p.1 = k
    · simp [dictSet, h]
    · simp only [dictSet, h, if_false]
      exact List.mem_cons_of_mem p ih

theorem dictHas_dictSet_self {α : Type} (l : List (String × α)) (k : String) (v : α) :
    dictHas (dictSet l k v) k = true := by
  induction l with
  | nil => simp [dictSet, dictHas]
  | cons p rest ih =>
    by_cases h : p.1 = k
    · simp [dictSet, dictHas, h]
    · simp only [dictSet, h, if_false, dictHas, List.any_cons]
      rw [dictHas] at ih
      simp [ih]

theorem dictHas_dictSet_mono {α : Type} (l : List (String × α)) (k k' : String) (v : α)
    (h : dictHas l k = true) : dictHas (dictSet l k' v) k = true := by
  induction l with
  | nil => simp [dictHas] at h
  | cons p rest ih =>
    simp only [dictHas, List.any_cons, Bool.or_eq_true] at h
    by_cases hk : p.1 = k'
    · rcases h with h | h
      · simp only [dictSet, hk, if_true, dictHas, List.any_cons, Bool.or_eq_true]
        left
        simp only [decide_eq_true_eq] at h
        simp [← hk, h]
      · simp only [dictSet, hk, if_true, dictHas, List.any_cons, Bool.or_eq_true]
        right
        exact h
    · rcases h with h | h
      · simp [dictSet, hk, dictHas, h]
      · simp only [dictSet, hk, if_false, dictHas, List.any_cons, Bool.or_eq_true]
        right
        rw [dictHas] at ih
        exact ih h

theorem dictHas_foldl_dictSet_preserve (ts : List PyTask) :
    ∀ (d : List (String × PyTask)) (k : String), dictHas d k = true →
      dictHas (ts.foldl (fun d t => dictSet d t.name t) d) k = true := by
  induction ts with
  | nil => intro d k h; exact h
  | cons t ts ih =>
    intro d k h
    rw [List.foldl_cons]
    exact ih _ k (dictHas_dictSet_mono d k t.name t h)

theorem dictHas_foldl_dictSet_mem (ts : List PyTask) :
    ∀ (d : List (String × PyTask)) (t : PyTask), t ∈ ts →
      dictHas (ts.foldl (fun d t => dictSet d t.name t) d) t.name = true := by
  induction ts with
  | nil => intro d t h; cases h
  | cons u ts ih =>
    intro d t h
    rw [List.foldl_cons]
    rcases List.mem_cons.mp h with h | h
    · subst h
      exact dictHas_foldl_dictSet_preserve ts _ t.name
        (dictHas_dictSet_self d t.name t)
    · exact ih _ t h

theorem dictHas_exists_mem {α : Type} (l : List (String × α)) (k : String)
    (h : dictHas l k = true) : ∃ q ∈ l, q.1 = k := by
  rw [dictHas, List.any_eq_true] at h
  rcases h with ⟨q, hq, hk⟩
  exact ⟨q, hq, by simpa using hk⟩

theorem magicFirstLoop_prefixed (imp : String → PyModule) (modName : String)
    (m : PyModule) (c : Collection) (bs : List (String × List PrefixedSpellbook))
    (t : PyTask) (hm : imp t.modName = m) (hp : m.shouldPfx = true) :
    magicFirstLoop imp modName none none (c, bs) t =
      (c, dictAppend bs (lastComponent m.name)
        ⟨lastComponent m.name, m.name, m.shouldDisplayTasks.getD true⟩) := by
  unfold magicFirstLoop
  dsimp only
  rw [hm, hp]
  simp

theorem foldl_magicFirstLoop_prefixed (imp : String → PyModule) (modName : String)
    (m : PyModule) (hp : m.shouldPfx = true) :
    ∀ (ts : List PyTask) (c : Collection) (bs : List (String × List PrefixedSpellbook)),
      (∀ t ∈ ts, imp t.modName = m) →
      ts.foldl (magicFirstLoop imp modName none none) (c, bs) =
        (c, ts.foldl
          (fun b _ => dictAppend b (lastComponent m.name)
            ⟨lastComponent m.name, m.name, m.shouldDisplayTasks.getD true⟩) bs)
  | [], c, bs, _ => rfl
  | t :: ts, c, bs, hmods => by
    rw [List.foldl_cons, List.foldl_cons,
      magicFirstLoop_prefixed imp modName m c bs t (hmods t (List.mem_cons_self t ts)) hp]
    exact foldl_magicFirstLoop_prefixed imp modName m hp ts c _
      (fun u hu => hmods u (List.mem_cons_of_mem t hu))

theorem foldl_dictAppend_const {α : Type} (k : String) (v : α) :
    ∀ (ts : List PyTask) (l : List α),
      ts.foldl (fun b _ => dictAppend b k v) [(k, l)] =
        [(k, l ++ List.replicate ts.length v)]
  | [], l => by simp
  | t :: ts, l => by
    rw [List.foldl_cons]
    have h1 : dictAppend [(k, l)] k v = [(k, l ++ [v])] := by simp [dictAppend]
    rw [h1, foldl_dictAppend_const k v ts (l ++ [v])]
    simp [List.replicate_succ]

theorem magicSecondLoopBook_err (imp : String → PyModule)
    (includes excludes : Option (List String)) (pfx : String)
    (e : AddCollectionErr) (book : PrefixedSpellbook) :
    magicSecondLoopBook imp includes excludes pfx (.error e) book = .error e := rfl

theorem foldl_magicSecondLoopBook_err (imp : String → PyModule)
    (includes excludes : Option (List String)) (pfx : String) (e : AddCollectionErr) :
    ∀ (books : List PrefixedSpellbook),
      books.foldl (magicSecondLoopBook imp includes excludes pfx) (.error e) = .error e
  | [] => rfl
  | _ :: books => foldl_magicSecondLoopBook_err imp includes excludes pfx e books

theorem magicSecondLoopBook_ok_eq (imp : String → PyModule) (pfx : String)
    (c : Collection) (book : PrefixedSpellbook) :
    magicSecondLoopBook imp none none pfx (.ok c) book =
      (if dictHas c.tasks pfx = true then
        Collection.add_collection c (subCollectionFromModule (imp book.modName))
          (pfx ++ "_" ++ slugify book.modName)
      else
        .ok { c with collections := dictSet c.collections pfx (buildSubCollection imp book none none) }) := by
  unfold magicSecondLoopBook
  rcases h : dictHas c.tasks pfx with _ | _
  · simp [Collection.add_collection, h]
  · simp [Collection.add_collection, h]

theorem magicSecondLoopBook_idem (imp : String → PyModule) (pfx : String)
    (c : Collection) (book : PrefixedSpellbook) :
    magicSecondLoopBook imp none none pfx
        (magicSecondLoopBook imp none none pfx (.ok c) book) book =
      magicSecondLoopBook imp none none pfx (.ok c) book := by
  rw [magicSecondLoopBook_ok_eq]
  rcases h : dictHas c.tasks pfx with _ | _
  · simp only [Bool.false_eq_true, if_false]
    rw [magicSecondLoopBook_ok_eq]
    have htasks : ({ c with collections := dictSet c.collections pfx (buildSubCollection imp book none none) } :
        Collection).tasks = c.tasks := rfl
    rw [htasks, h]
    simp [dictSet_idem]
  · simp only [if_true]
    unfold Collection.add_collection
    rcases h2 : dictHas c.tasks (pfx ++ "_" ++ slugify book.modName) with _ | _
    · simp only [Bool.false_eq_true, if_false]
      rw [magicSecondLoopBook_ok_eq]
      have htasks : ({ c with collections := dictSet c.collections (pfx ++ "_" ++ slugify book.modName) (subCollectionFromModule (imp book.modName)) } : Collection).tasks = c.tasks := rfl
      rw [htasks, h]
      simp [Collection.add_collection, h2, dictSet_idem]
    · simp [magicSecondLoopBook_err]

theorem foldl_magicSecondLoopBook_replicate (imp : String → PyModule) (pfx : String)
    (book : PrefixedSpellbook) :
    ∀ (n : Nat) (c : Collection),
      (List.replicate (n + 1) book).foldl (magicSecondLoopBook imp none none pfx)
          (.ok c) =
        magicSecondLoopBook imp none none pfx (.ok c) book
  | 0, c => rfl
  | n + 1, c => by
    rw [List.replicate_succ, List.foldl_cons]
    rcases hstep : magicSecondLoopBook imp none none pfx (.ok c) book with e | c'
    · rw [foldl_magicSecondLoopBook_err]
    · rw [foldl_magicSecondLoopBook_replicate imp pfx book n c']
      have := magicSecondLoopBook_idem imp pfx c book
      rw [hstep] at this
      exact this

theorem add_single_task_to_sub_no_filters (sub : SubCollection) (t : PyTask)
    (pfx taskName : Option String) :
    add_single_task_to_sub sub t none none pfx taskName =
      (sub.add_task t taskName, true) := rfl

/-- The sub-collection claim C3 describes: the visible tasks of the module,
each under its own name. -/
def visibleSub (m : PyModule) : SubCollection :=
  ⟨(m.tasks.filter fun t => display_task t (m.shouldDisplayTasks.getD true)).foldl
    (fun d t => dictSet d t.name t) []⟩

theorem foldl_add_if_filter (p : PyTask → Bool) (pfx : Option String) :
    ∀ (ts : List PyTask) (d : List (String × PyTask)),
      ts.foldl
        (fun sub t =>
          if p t = true then (add_single_task_to_sub sub t none none pfx none).1
          else sub) ⟨d⟩ =
        ⟨(ts.filter p).foldl (fun d t => dictSet d t.name t) d⟩
  | [], d => rfl
  | t :: ts, d => by
    rw [List.foldl_cons, List.filter_cons]
    rcases hp : p t with _ | _
    · simp only [Bool.false_eq_true, if_false]
      exact foldl_add_if_filter p pfx ts d
    · simp only [if_true, add_single_task_to_sub_no_filters]
      rw [List.foldl_cons]
      exact foldl_add_if_filter p pfx ts (dictSet d t.name t)

theorem buildSubCollection_eq_visibleSub (imp : String → PyModule) (m : PyModule)
    (him : imp m.name = m) :
    buildSubCollection imp
        ⟨lastComponent m.name, m.name, m.shouldDisplayTasks.getD true⟩ none none =
      visibleSub m := by
  unfold buildSubCollection visibleSub
  dsimp only
  rw [him]
  exact foldl_add_if_filter (fun t => display_task t (m.shouldDisplayTasks.getD true))
    (some (lastComponent m.name)) m.tasks []

theorem magically_add_tasks_prefixed_eq_step (imp : String → PyModule)
    (c : Collection) (m : PyModule) (him : imp m.name = m) (hsp : m.shouldPfx = true)
    (hmods : ∀ t ∈ m.tasks, t.modName = m.name) (hne : m.tasks ≠ []) :
    magically_add_tasks imp c m none none =
      magicSecondLoopBook imp none none (lastComponent m.name) (.ok c)
        ⟨lastComponent m.name, m.name, m.shouldDisplayTasks.getD true⟩ := by
  rcases List.exists_cons_of_ne_nil hne with ⟨t0, rest, hts⟩
  have hall : ∀ t ∈ m.tasks, imp t.modName = m := fun t ht => by
    rw [hmods t ht, him]
  unfold magically_add_tasks
  rw [hts] at hall ⊢
  rw [List.foldl_cons,
    magicFirstLoop_prefixed imp m.name m c [] t0 (hall t0 (List.mem_cons_self t0 rest)) hsp,
    foldl_magicFirstLoop_prefixed imp m.name m hsp rest c _
      (fun u hu => hall u (List.mem_cons_of_mem t0 hu))]
  have happ : dictAppend ([] : List (String × List PrefixedSpellbook))
      (lastComponent m.name)
      ⟨lastComponent m.name, m.name, m.shouldDisplayTasks.getD true⟩ =
      [(lastComponent m.name,
        [(⟨lastComponent m.name, m.name, m.shouldDisplayTasks.getD true⟩ :
          PrefixedSpellbook)])] := rfl
  rw [happ, foldl_dictAppend_const]
  have hrep : [(⟨lastComponent m.name, m.name, m.shouldDisplayTasks.getD true⟩ :
      PrefixedSpellbook)] ++
      List.replicate rest.length
        (⟨lastComponent m.name, m.name, m.shouldDisplayTasks.getD true⟩ :
          PrefixedSpellbook) =
      List.replicate (rest.length + 1)
        ⟨lastComponent m.name, m.name, m.shouldDisplayTasks.getD true⟩ := by
    rw [List.singleton_append, List.replicate_succ]
  rw [hrep]
  dsimp only [List.foldl_cons, List.foldl_nil]
  exact foldl_magicSecondLoopBook_replicate imp (lastComponent m.name) _ rest.length c

/-- C3: for a module with a truthy `SHOULD_PREFIX` (all of whose tasks it
defines itself, none hidden by filters), the visible tasks land in a
sub-collection named after the last dotted component of the module name, so
each visible task's full name is `prefix.name`; when a task already occupies
the prefix name, the whole module is added under
`prefix + "_" + slugified module name` instead. -/
theorem magically_add_tasks_should_pfx (imp : String → PyModule)
    (c : Collection) (m : PyModule) (him : imp m.name = m) (hsp : m.shouldPfx = true)
    (hmods : ∀ t ∈ m.tasks, t.modName = m.name) (hne : m.tasks ≠ []) :
    (dictHas c.tasks (lastComponent m.name) = false →
      magically_add_tasks imp c m none none =
        .ok { c with collections := dictSet c.collections (lastComponent m.name) (visibleSub m) } ∧
      ∀ t ∈ m.tasks, display_task t (m.shouldDisplayTasks.getD true) = true →
        (lastComponent m.name ++ "." ++ t.name) ∈ fullTaskNames
          { c with collections := dictSet c.collections (lastComponent m.name) (visibleSub m) }) ∧
    (dictHas c.tasks (lastComponent m.name) = true →
      dictHas c.tasks (lastComponent m.name ++ "_" ++ slugify m.name) = false →
      magically_add_tasks imp c m none none =
        .ok { c with collections := dictSet c.collections (lastComponent m.name ++ "_" ++ slugify m.name) (subCollectionFromModule m) }) := by
  have hstep := magically_add_tasks_prefixed_eq_step imp c m him hsp hmods hne
  constructor
  · intro hfree
    constructor
    · rw [hstep, magicSecondLoopBook_ok_eq, hfree]
      simp only [Bool.false_eq_true, if_false]
      rw [buildSubCollection_eq_visibleSub imp m him]
    · intro t ht hvis
      have hmem : dictHas (visibleSub m).tasks t.name = true := by
        unfold visibleSub
        exact dictHas_foldl_dictSet_mem _ [] t (List.mem_filter.mpr ⟨ht, hvis⟩)
      rcases dictHas_exists_mem _ _ hmem with ⟨q, hq, hqname⟩
      unfold fullTaskNames
      apply List.mem_append_right
      rw [List.mem_flatMap]
      refine ⟨(lastComponent m.name, visibleSub m), ?_, ?_⟩
      · exact mem_dictSet_self c.collections (lastComponent m.name) (visibleSub m)
      · rw [List.mem_map]
        exact ⟨q, hq, by rw [hqname]⟩
  · intro htaken hfree2
    rw [hstep, magicSecondLoopBook_ok_eq, htaken]
    simp only [if_true]
    unfold Collection.add_collection
    rw [him, hfree2]
    simp

/-- A prefixed module with one visible task, for the C3 witness. -/
def taskSync : PyTask := ⟨"sync", "spells.pap", false, true⟩

/-- The prefixed module providing `taskSync`. -/
def modPap : PyModule := ⟨"spells.pap", true, none, [taskSync]⟩

/-- An importer resolving every name to `modPap`. -/
def impPap : String → PyModule := fun _ => modPap

/-- A task occupying the name `pap`, forcing the C3 fallback. -/
def taskPapBlocker : PyTask := ⟨"pap", "other", false, true⟩

theorem magically_add_tasks_should_pfx_witness :
    (magically_add_tasks impPap ⟨[], []⟩ modPap none none =
      .ok ⟨[], [("pap", visibleSub modPap)]⟩ ∧
      ("pap" ++ "." ++ "sync") ∈ fullTaskNames
        ⟨[], [("pap", visibleSub modPap)]⟩) ∧
    magically_add_tasks impPap ⟨[("pap", taskPapBlocker)], []⟩ modPap none none =
      .ok ⟨[("pap", taskPapBlocker)],
        [("pap_spells_pap", subCollectionFromModule modPap)]⟩ := by
  have h := magically_add_tasks_should_pfx impPap ⟨[], []⟩ modPap rfl rfl
    (by decide) (by decide)
  have h2 := magically_add_tasks_should_pfx impPap ⟨[("pap", taskPapBlocker)], []⟩
    modPap rfl rfl (by decide) (by decide)
  refine ⟨⟨(h.1 (by decide)).1, ?_⟩, (h2.2 (by decide) (by decide))⟩
  exact (h.1 (by decide)).2 taskSync (by decide) (by decide)

/-! ## Theorems about `collection_from_python_files` (claim C4) -/

/-- A file matched by two distinct patterns, for the C4 counterexample. -/
def fileTasks : PyFile := ⟨10, "tasks"⟩

/-- A glob where the patterns `*.py` and `t*.py` both match `tasks.py`. -/
def globOverlap : String → String → List PyFile := fun _ pat =>
  if pat = "*.py" then [fileTasks] else if pat = "t*.py" then [fileTasks] else []

/-- The single task of the twice-discovered module. -/
def taskT : PyTask := ⟨"t", "tasks", false, true⟩

/-- The module `tasks.py` defines. -/
def modTasks : PyModule := ⟨"tasks", false, none, [taskT]⟩

/-- A current module with no tasks. -/
def modCurrent : PyModule := ⟨"cur", false, none, []⟩

/-- The importer for the C4 counterexample. -/
def impTasks : String → PyModule := fun s => if s = "tasks" then modTasks else modCurrent

/-- C4 counterexample: two distinct glob patterns matching the same file
make `collection_from_python_files` process that file twice — the claim
that no file is added twice is false.  Observably, the second pass re-adds
the module's task under the collision-suffixed name `t-tasks`. -/
theorem collection_from_python_files_adds_twice :
    (discovered_files globOverlap "h" "h" ["*.py", "t*.py"] 99).count fileTasks = 2 ∧
    collection_from_python_files impTasks globOverlap "h" "h" ["*.py", "t*.py"] 99
        modCurrent none none =
      .ok ⟨[("t", taskT), ("t-tasks", taskT)], []⟩ := by
  constructor
  · decide
  · rfl

/-- C4 (amended): the deduplication mechanisms that do exist — a duplicate
pattern is collapsed, the two search directories collapse to one when the
current directory is the home directory, and the loader's own file is always
skipped; every other match is imported, and a file is processed at most once
provided distinct (directory, pattern) pairs match disjoint file sets. -/
theorem discovered_files_spec :
    (∀ (glob : String → String → List PyFile) (cwd home : String)
      (patterns : List String) (ino : Nat) (f : PyFile), f.inode = ino →
      f ∉ discovered_files glob cwd home patterns ino) ∧
    (∀ cwd : String, searchDirs cwd cwd = [cwd]) ∧
    (∀ (glob : String → String → List PyFile) (cwd home : String)
      (patterns : List String) (ino : Nat) (d p : String) (f : PyFile),
      d ∈ searchDirs cwd home → p ∈ patterns → f ∈ glob d p → f.inode ≠ ino →
      f ∈ discovered_files glob cwd home patterns ino) ∧
    (∀ (glob : String → String → List PyFile) (cwd home : String)
      (patterns : List String) (ino : Nat),
      (∀ d p, (glob d p).Nodup) →
      (∀ d p d' p', d ∈ searchDirs cwd home → d' ∈ searchDirs cwd home →
        (d, p) ≠ (d', p') → ∀ f, f ∈ glob d p → f ∉ glob d' p') →
      ∀ f, (discovered_files glob cwd home patterns ino).count f ≤ 1) := by
  refine ⟨?_, ?_, ?_, ?_⟩
  · intro glob cwd home patterns ino f hf hmem
    unfold discovered_files at hmem
    rw [List.mem_flatMap] at hmem
    rcases hmem with ⟨d, _, hmem⟩
    rw [List.mem_flatMap] at hmem
    rcases hmem with ⟨p, _, hmem⟩
    rw [List.mem_filter] at hmem
    have := hmem.2
    simp [hf] at this
  · intro cwd
    simp [searchDirs]
  · intro glob cwd home patterns ino d p f hd hp hf hino
    unfold discovered_files
    rw [List.mem_flatMap]
    refine ⟨d, hd, ?_⟩
    rw [List.mem_flatMap]
    exact ⟨p, List.mem_dedup.mpr hp, List.mem_filter.mpr ⟨hf, by simpa using hino⟩⟩
  · intro glob cwd home patterns ino h1 h2 f
    have hnd : (discovered_files glob cwd home patterns ino).Nodup := by
      unfold discovered_files
      rw [List.nodup_flatMap]
      constructor
      · intro d hd
        rw [List.nodup_flatMap]
        constructor
        · intro p _
          exact (h1 d p).filter _
        · have hnd2 := List.nodup_dedup patterns
          refine List.Pairwise.imp ?_ hnd2
          intro p p' hne f' hf hf'
          rw [List.mem_filter] at hf hf'
          exact h2 d p d p' hd hd (by simp [hne]) f' hf.1 hf'.1
      · have hdisj : ∀ d d', d ∈ searchDirs cwd home → d' ∈ searchDirs cwd home →
            d ≠ d' →
            ∀ f', f' ∈ (patterns.dedup.flatMap fun pat =>
                (glob d pat).filter fun g => g.inode ≠ ino) →
              f' ∉ (patterns.dedup.flatMap fun pat =>
                (glob d' pat).filter fun g => g.inode ≠ ino) := by
          intro d d' hd hd' hne f' hf hf'
          rw [List.mem_flatMap] at hf hf'
          rcases hf with ⟨p, _, hf⟩
          rcases hf' with ⟨p', _, hf'⟩
          rw [List.mem_filter] at hf hf'
          exact h2 d p d' p' hd hd' (by simp [hne]) f' hf.1 hf'.1
        unfold searchDirs
        split
        · simp
        · next hcwd =>
          refine List.pairwise_cons.mpr ⟨?_, by simp⟩
          intro d' hd'
          have hd'2 : d' = home := by simpa using hd'
          subst hd'2
          intro f' hf hf'
          exact hdisj cwd d' (by simp [searchDirs, hcwd]) (by simp [searchDirs, hcwd])
            hcwd f' hf hf'
    exact List.nodup_iff_count_le_one.mp hnd f

/-- A glob matching a single file for the single pattern `a`. -/
def globOne : String → String → List PyFile := fun _ pat =>
  if pat = "a" then [fileTasks] else []

theorem discovered_files_spec_witness :
    (⟨99, "self"⟩ : PyFile) ∉ discovered_files globOne "h" "h" ["a"] 99 ∧
    searchDirs "h" "h" = ["h"] ∧
    fileTasks ∈ discovered_files globOne "h" "h" ["a"] 77 ∧
    (discovered_files globOne "h" "h" ["a", "b"] 99).count fileTasks ≤ 1 := by
  refine ⟨?_, discovered_files_spec.2.1 "h", ?_, ?_⟩
  · exact discovered_files_spec.1 globOne "h" "h" ["a"] 99 ⟨99, "self"⟩ rfl
  · exact discovered_files_spec.2.2.1 globOne "h" "h" ["a"] 77 "h" "a" fileTasks
      (by decide) (by decide) (by decide) (by decide)
  · refine discovered_files_spec.2.2.2 globOne "h" "h" ["a", "b"] 99 ?_ ?_ fileTasks
    · intro d p
      unfold globOne
      split <;> simp
    · intro d p d' p' hd hd' hne f' hf hf'
      have hd1 : d = "h" := by simpa [searchDirs] using hd
      have hd2 : d' = "h" := by simpa [searchDirs] using hd'
      subst hd1; subst hd2
      have hpp : p ≠ p' := by
        intro he
        exact hne (by rw [he])
      unfold globOne at hf hf'
      by_cases hp : p = "a"
      · rw [if_pos hp] at hf
        rw [if_neg (hp ▸ hpp.symm)] at hf'
        cases hf'
      · rw [if_neg hp] at hf
        cases hf

/-! ## Paperless sanity: orphan-file classification (claim C7)

`_process_orphans` receives `partial_path`, a relative `Path`, modelled as
its list of components (`Path.parts`); path components of real orphan lines
are non-empty and slash-free, which theorems assume where it matters.
`pathlib` name/stem/suffix semantics: the suffix starts at the last dot of
the final component, provided that dot is neither the first nor the last
character of the component. -/

/-- A relative `Path`, as its list of components (`Path.parts`). -/
abbrev Parts := List String

/-- `PurePath.name`: the last component, `""` for an empty path. -/
def partsName (p : Parts) : String := (p.getLast?).getD ""

/-- `str(path)` for a relative path: components joined with `/`. -/
def strParts (p : Parts) : String := "/".intercalate p

/-- Position of the last `.` in a component, scanning from the right. -/
def lastDotPos : List Char → Option Nat
  | [] => none
  | c :: rest =>
    match lastDotPos rest with
    | some j => some (j + 1)
    | none => if c = '.' then some 0 else none

/-- `PurePath.stem` of a file name. -/
def pyStemName (name : String) : String :=
  match lastDotPos name.data with
  | some i => if 0 < i ∧ i < name.data.length - 1 then ⟨name.data.take i⟩ else name
  | none => name

/-- `PurePath.suffix` of a file name. -/
def pySuffixName (name : String) : String :=
  match lastDotPos name.data with
  | some i => if 0 < i ∧ i < name.data.length - 1 then ⟨name.data.drop i⟩ else ""
  | none => ""

/-- `path.with_suffix("")`: drop the suffix from the last component;
`ValueError` (i.e. `none`) when the path has an empty name. -/
def withSuffixEmpty (p : Parts) : Option Parts :=
  let name := partsName p
  if name = "" then none
  else some (p.dropLast ++ [pyStemName name])

/-- Split a list of characters on a separator (Python `str.split(sep)`). -/
def splitChar (sep : Char) : List Char → List (List Char)
  | [] => [[]]
  | c :: rest =>
    let r := splitChar sep rest
    if c = sep then [] :: r
    else
      match r with
      | [] => [[c]]
      | h :: t => (c :: h) :: t

/-- Python `part.split(",")`. -/
def pySplitComma (s : String) : List String :=
  (splitChar ',' s.data).map (fun l => ⟨l⟩)

/-- Strict lexicographic order on character lists (Python string `<`:
code-point comparison, a proper prefix is smaller). -/
def charListLt : List Char → List Char → Bool
  | [], [] => false
  | [], _ :: _ => true
  | _ :: _, [] => false
  | a :: as, b :: bs => a < b || (a = b && charListLt as bs)

/-- Python `a < b` on strings. -/
def strLtB (a b : String) : Bool := charListLt a.data b.data

/-- `a <= b` on strings. -/
def strLeB (a b : String) : Bool := !(strLtB b a)

/-- Stable ascending insertion (Python `sorted`). -/
def orderedInsertStr (x : String) : List String → List String
  | [] => [x]
  | y :: ys => if strLeB x y then x :: y :: ys else y :: orderedInsertStr x ys

/-- Python `sorted(strings)`. -/
def sortStrings (l : List String) : List String := l.foldr orderedInsertStr []

/-- Python `str.isnumeric()` restricted to ASCII digits. -/
def isNumericStr (s : String) : Bool := !s.data.isEmpty && s.data.all Char.isDigit

/-- Parse a decimal digit string (`int(part)` after `isnumeric`). -/
def parseNatChars (l : List Char) : Nat :=
  l.foldl (fun a c => a * 10 + (c.toNat - 48)) 0

/-- `int(s)` for a digit string. -/
def strToNat (s : String) : Nat := parseNatChars s.data

/-- Python `a.startswith(b)`. -/
def strStartsWith (a b : String) : Bool := b.data.isPrefixOf a.data

/-- `paperless.OrphanFile`: the `source` is kept as the path string (which
is what `Path.__lt__` compares); the `destination` as its components. -/
structure OrphanFile where
  source : String
  destination : Parts
deriving DecidableEq

/-- `orphan_dir / partial_path` where `orphan_dir = documents_dir or Path()`. -/
def orphanSource (docDir : Option String) (p : Parts) : String :=
  match docDir with
  | some d => d ++ "/" ++ strParts p
  | none => strParts p

/-- The destination `_split_original_archive` computes: the non-final
components with comma-joined ones expanded (sorted), year directories that
the file stem repeats dropped, then the file name. -/
def orphanDestination (p : Parts) : Parts :=
  let expandedParts := p.dropLast.flatMap fun part =>
    if part.data.contains ',' then sortStrings (pySplitComma part) else [part]
  let stem := pyStemName (partsName p)
  let filteredParts := expandedParts.filter fun part =>
    !(isNumericStr part && (part.length = 4 : Bool) &&
      (1900 < strToNat part : Bool) && strStartsWith stem part)
  filteredParts ++ [partsName p]

/-- `paperless._split_original_archive`: key the file by its path without
the first component and without its suffix, and append the orphan to that
key's group; `none` is the `ValueError` that `with_suffix` raises on an
empty name (single-component paths). -/
def split_original_archive (groups : List (String × List OrphanFile))
    (partialPath : Parts) (docDir : Option String) :
    Option (List (String × List OrphanFile)) :=
  match withSuffixEmpty (partialPath.drop 1) with
  | none => none
  | some keyParts =>
    let fileKey := strParts keyParts
    let orphan : OrphanFile :=
      ⟨orphanSource docDir partialPath, orphanDestination partialPath⟩
    some (dictAppend groups fileKey orphan)

/-- The three buckets `_process_orphans` fills. -/
structure SanityBuckets where
  groups : List (String × List OrphanFile)
  orphanFiles : List String
  thumbnailFiles : List String
deriving DecidableEq

/-- `paperless._process_orphans`: drop `.DS_Store`, route `thumbnails/` to
the thumbnail list, `archive/` and `originals/` to the grouping dictionary,
everything else to the other-orphans list; `none` models the `IndexError`
of `parts[0]` on an empty path and the `ValueError` inside
`_split_original_archive`. -/
def process_orphans (partialPath : Parts) (docDir : Option String)
    (st : SanityBuckets) : Option SanityBuckets :=
  if partsName partialPath = ".DS_Store" then some st
  else
    match partialPath.head? with
    | none => none
    | some firstPart =>
      if firstPart = "thumbnails" then
        some { st with thumbnailFiles := st.thumbnailFiles ++ [strParts partialPath] }
      else if firstPart = "archive" ∨ firstPart = "originals" then
        match split_original_archive st.groups partialPath docDir with
        | none => none
        | some g => some { st with groups := g }
      else
        some { st with orphanFiles := st.orphanFiles ++ [strParts partialPath] }

/-- Stable descending insertion (Python `sorted(..., reverse=True)`):
`x` goes before the first strictly smaller element. -/
def orderedInsertDesc (x : OrphanFile) : List OrphanFile → List OrphanFile
  | [] => [x]
  | y :: ys =>
    if !(strLtB x.source y.source) then x :: y :: ys else y :: orderedInsertDesc x ys

/-- Python `sorted(orphans, reverse=True)` (by `OrphanFile.__lt__`, i.e. by
source path). -/
def sortOrphansDesc (l : List OrphanFile) : List OrphanFile :=
  l.foldr orderedInsertDesc []

/-- `path.with_stem(newStem)` = `with_name(newStem + suffix)`; `none` on an
empty name. -/
def withStem (p : Parts) (newStem : String) : Option Parts :=
  let name := partsName p
  if name = "" then none
  else some (p.dropLast ++ [newStem ++ pySuffixName name])

/-- The `together` adjustment of one matched orphan: drop the destination's
first component, and mark archive files by suffixing `-archive` to the
stem. -/
def togetherAdjustOne (o : OrphanFile) : Option OrphanFile :=
  let matchPath := o.destination
  let fileWithoutFirstPart := matchPath.drop 1
  if strStartsWith (strParts matchPath) "archive" then
    match withStem fileWithoutFirstPart
        (pyStemName (partsName matchPath) ++ "-archive") with
    | none => none
    | some d => some { o with destination := d }
  else
    some { o with destination := fileWithoutFirstPart }

/-- The loop body of `_split_matched_unmatched` for one group. -/
def splitMUStep (together : Bool)
    (acc : Option (List OrphanFile × List OrphanFile))
    (entry : String × List OrphanFile) :
    Option (List OrphanFile × List OrphanFile) :=
  match acc with
  | none => none
  | some (matched, unmatched) =>
    let singleOrPair := entry.2
    if singleOrPair.length = 2 then
      let originalsFirst := sortOrphansDesc singleOrPair
      if together then
        match originalsFirst.mapM togetherAdjustOne with
        | none => none
        | some adjusted => some (matched ++ adjusted, unmatched)
      else
        some (matched ++ originalsFirst, unmatched)
    else
      some (matched, unmatched ++ singleOrPair)

/-- `paperless._split_matched_unmatched`: groups of exactly two files become
matched pairs, sorted descending by source (originals before archive); every
other group size goes to the unmatched list wholesale.  With `together`,
matched destinations are additionally adjusted. -/
def split_matched_unmatched (groups : List (String × List OrphanFile))
    (together : Bool) : Option (List OrphanFile × List OrphanFile) :=
  groups.foldl (splitMUStep together) (some ([], []))

/-! ## Theorems about the orphan classification (claim C7) -/

/-- C7 counterexample: an orphan line whose path is the single component
`archive` makes `_split_original_archive` call `with_suffix` on an empty
name, which raises `ValueError` — the path is not grouped as the claim
states. -/
theorem process_orphans_single_archive_raises :
    process_orphans ["archive"] none ⟨[], [], []⟩ = none := rfl

theorem withSuffixEmpty_drop_one (a b : String) (rest : List String)
    (hname : partsName (a :: b :: rest) ≠ "") :
    withSuffixEmpty ((a :: b :: rest).drop 1) =
      some ((b :: rest).dropLast ++ [pyStemName (partsName (a :: b :: rest))]) := by
  have hlast : partsName (b :: rest) = partsName (a :: b :: rest) := by
    unfold partsName
    rw [List.getLast?_cons_cons]
  show withSuffixEmpty (b :: rest) = _
  unfold withSuffixEmpty
  dsimp only
  rw [hlast, if_neg hname]

theorem splitMUStep_false (m u : List OrphanFile) (e : String × List OrphanFile) :
    splitMUStep false (some (m, u)) e =
      (if e.2.length = 2 then some (m ++ sortOrphansDesc e.2, u)
       else some (m, u ++ e.2)) := by
  unfold splitMUStep
  dsimp only
  simp

theorem charListLt_append_lt (l : List Char) (x y : Char) (xs ys : List Char)
    (h : x < y) : charListLt (l ++ x :: xs) (l ++ y :: ys) = true := by
  induction l with
  | nil => simp [charListLt, h]
  | cons c l ih =>
    show (decide (c < c) || (decide (c = c) && charListLt (l ++ x :: xs) (l ++ y :: ys))) = true
    rw [ih]
    simp

theorem charListLt_append_not_lt (l : List Char) (x y : Char) (xs ys : List Char)
    (h : x < y) : charListLt (l ++ y :: ys) (l ++ x :: xs) = false := by
  induction l with
  | nil =>
    show (decide (y < x) || (decide (y = x) && charListLt ys xs)) = false
    have h1 : ¬ y < x := asymm h
    have h2 : y ≠ x := (ne_of_lt h).symm
    simp [h1, h2]
  | cons c l ih =>
    show (decide (c < c) || (decide (c = c) && charListLt (l ++ y :: ys) (l ++ x :: xs))) = false
    rw [ih]
    simp

theorem source_archive_lt_originals (pre ra rb : String) :
    strLtB (pre ++ "archive" ++ ra) (pre ++ "originals" ++ rb) = true ∧
    strLtB (pre ++ "originals" ++ rb) (pre ++ "archive" ++ ra) = false := by
  have hdata1 : (pre ++ "archive" ++ ra).data =
      pre.data ++ 'a' :: ("rchive".data ++ ra.data) := by
    rw [String.data_append, String.data_append, List.append_assoc]
    rfl
  have hdata2 : (pre ++ "originals" ++ rb).data =
      pre.data ++ 'o' :: ("riginals".data ++ rb.data) := by
    rw [String.data_append, String.data_append, List.append_assoc]
    rfl
  unfold strLtB
  rw [hdata1, hdata2]
  exact ⟨charListLt_append_lt _ _ _ _ _ (by decide),
    charListLt_append_not_lt _ _ _ _ _ (by decide)⟩

/-- The matched files claim C7 describes (for `together=False`): the
descending-sorted two-element groups, in dictionary order. -/
def claimMatched (groups : List (String × List OrphanFile)) : List OrphanFile :=
  (groups.filter fun e => e.2.length = 2).flatMap fun e => sortOrphansDesc e.2

/-- The unmatched files claim C7 describes: every file of every group whose
size is not exactly two, in dictionary order. -/
def claimUnmatched (groups : List (String × List OrphanFile)) : List OrphanFile :=
  (groups.filter fun e => !(e.2.length = 2 : Bool)).flatMap fun e => e.2

theorem split_matched_unmatched_false_aux :
    ∀ (groups : List (String × List OrphanFile)) (macc uacc : List OrphanFile),
      groups.foldl (splitMUStep false) (some (macc, uacc)) =
        some (macc ++ claimMatched groups, uacc ++ claimUnmatched groups)
  | [], macc, uacc => by simp [claimMatched, claimUnmatched]
  | e :: gs, macc, uacc => by
    rw [List.foldl_cons, splitMUStep_false]
    rcases h2 : decide (e.2.length = 2) with _ | _
    · have hne : ¬ e.2.length = 2 := by simpa using h2
      rw [if_neg hne, split_matched_unmatched_false_aux gs macc (uacc ++ e.2)]
      have hm : claimMatched (e :: gs) = claimMatched gs := by
        unfold claimMatched
        rw [List.filter_cons]
        simp [hne]
      have hu : claimUnmatched (e :: gs) = e.2 ++ claimUnmatched gs := by
        unfold claimUnmatched
        rw [List.filter_cons]
        simp [hne]
      rw [hm, hu, List.append_assoc]
    · have heq : e.2.length = 2 := by simpa using h2
      rw [if_pos heq, split_matched_unmatched_false_aux gs (macc ++ sortOrphansDesc e.2) uacc]
      have hm : claimMatched (e :: gs) = sortOrphansDesc e.2 ++ claimMatched gs := by
        unfold claimMatched
        rw [List.filter_cons]
        simp [heq]
      have hu : claimUnmatched (e :: gs) = claimUnmatched gs := by
        unfold claimUnmatched
        rw [List.filter_cons]
        simp [heq]
      rw [hm, hu, List.append_assoc]

/-- C7 (amended): each orphan line is routed to exactly one bucket —
`.DS_Store` names are dropped, `thumbnails/` paths go to the thumbnail list,
`archive/` and `originals/` paths of at least two components are grouped
under the path without its first component and suffix (a single-component
`archive`/`originals` path instead raises `ValueError`), and every other
path goes to the other-orphans list; a group's files become a matched,
descending-sorted pair (originals before archive) iff the group has exactly
two entries, all other groups going wholesale to the unmatched list. -/
theorem orphan_classification_spec :
    (∀ (p : Parts) (docDir : Option String) (st : SanityBuckets),
      partsName p = ".DS_Store" → process_orphans p docDir st = some st) ∧
    (∀ (rest : Parts) (docDir : Option String) (st : SanityBuckets),
      partsName ("thumbnails" :: rest) ≠ ".DS_Store" →
      process_orphans ("thumbnails" :: rest) docDir st =
        some { st with thumbnailFiles := st.thumbnailFiles ++ [strParts ("thumbnails" :: rest)] }) ∧
    (∀ (p : Parts) (docDir : Option String) (st : SanityBuckets) (a b : String)
      (rest : Parts), p = a :: b :: rest →
      (a = "archive" ∨ a = "originals") →
      partsName p ≠ ".DS_Store" → partsName p ≠ "" →
      process_orphans p docDir st =
        some { st with groups := dictAppend st.groups (strParts ((b :: rest).dropLast ++ [pyStemName (partsName p)])) ⟨orphanSource docDir p, orphanDestination p⟩ }) ∧
    (∀ (a : String) (docDir : Option String) (st : SanityBuckets),
      (a = "archive" ∨ a = "originals") →
      process_orphans [a] docDir st = none) ∧
    (∀ (a : String) (rest : Parts) (docDir : Option String) (st : SanityBuckets),
      partsName (a :: rest) ≠ ".DS_Store" →
      a ≠ "thumbnails" → a ≠ "archive" → a ≠ "originals" →
      process_orphans (a :: rest) docDir st =
        some { st with orphanFiles := st.orphanFiles ++ [strParts (a :: rest)] }) ∧
    (∀ groups : List (String × List OrphanFile),
      split_matched_unmatched groups false =
        some (claimMatched groups, claimUnmatched groups)) ∧
    (∀ (a b : OrphanFile) (pre ra rb : String),
      a.source = pre ++ "archive" ++ ra → b.source = pre ++ "originals" ++ rb →
      sortOrphansDesc [a, b] = [b, a] ∧ sortOrphansDesc [b, a] = [b, a]) := by
  refine ⟨?_, ?_, ?_, ?_, ?_, ?_, ?_⟩
  · intro p docDir st h
    unfold process_orphans
    rw [if_pos h]
  · intro rest docDir st h
    unfold process_orphans
    rw [if_neg h]
    rfl
  · intro p docDir st a b rest hp ha hds hname
    subst hp
    unfold process_orphans
    rw [if_neg hds]
    have hth : ¬ (a = "thumbnails") := by
      rcases ha with h | h <;> subst h <;> decide
    show (if a = "thumbnails" then _ else _) = _
    rw [if_neg hth, if_pos ha]
    unfold split_original_archive
    rw [withSuffixEmpty_drop_one a b rest hname]
  · intro a docDir st ha
    unfold process_orphans
    have hds : ¬ (partsName [a] = ".DS_Store") := by
      rcases ha with h | h <;> subst h <;> decide
    rw [if_neg hds]
    have hth : ¬ (a = "thumbnails") := by
      rcases ha with h | h <;> subst h <;> decide
    show (if a = "thumbnails" then _ else _) = _
    rw [if_neg hth, if_pos ha]
    rfl
  · intro a rest docDir st hds h1 h2 h3
    unfold process_orphans
    rw [if_neg hds]
    show (if a = "thumbnails" then _ else _) = _
    rw [if_neg h1, if_neg (by simp [h2, h3])]
  · intro groups
    exact split_matched_unmatched_false_aux groups [] []
  · intro a b pre ra rb hsa hsb
    have hord := source_archive_lt_originals pre ra rb
    have hlt : strLtB a.source b.source = true := by
      rw [hsa, hsb]
      exact hord.1
    have hnlt : strLtB b.source a.source = false := by
      rw [hsa, hsb]
      exact hord.2
    constructor
    · show (if !(strLtB a.source b.source) then a :: b :: [] else b :: orderedInsertDesc a []) = [b, a]
      rw [hlt]
      rfl
    · show (if !(strLtB b.source a.source) then b :: a :: [] else a :: orderedInsertDesc b []) = [b, a]
      rw [hnlt]
      rfl

/-- Empty sanity buckets. -/
def st0 : SanityBuckets := ⟨[], [], []⟩

/-- An archive orphan of the pair used in the C7 witness. -/
def oArch : OrphanFile := ⟨"docs/archive/a.pdf", ["archive", "a.pdf"]⟩

/-- The originals orphan of the pair used in the C7 witness. -/
def oOrig : OrphanFile := ⟨"docs/originals/a.pdf", ["originals", "a.pdf"]⟩

/-- An unpaired orphan used in the C7 witness. -/
def oSingle : OrphanFile := ⟨"docs/originals/b.pdf", ["originals", "b.pdf"]⟩

/-- A grouping dictionary with one pair and one singleton. -/
def demoGroups : List (String × List OrphanFile) :=
  [("a", [oArch, oOrig]), ("b", [oSingle])]

theorem orphan_classification_spec_witness :
    process_orphans ["originals", ".DS_Store"] none st0 = some st0 ∧
    process_orphans ["thumbnails", "t1.png"] none st0 =
      some { st0 with thumbnailFiles := st0.thumbnailFiles ++ [strParts ["thumbnails", "t1.png"]] } ∧
    process_orphans ["archive", "doc.pdf"] none st0 =
      some ⟨[("doc", [⟨"archive/doc.pdf", ["archive", "doc.pdf"]⟩])], [], []⟩ ∧
    process_orphans ["originals"] none st0 = none ∧
    process_orphans ["misc", "x.bin"] none st0 =
      some { st0 with orphanFiles := st0.orphanFiles ++ [strParts ["misc", "x.bin"]] } ∧
    split_matched_unmatched demoGroups false = some ([oOrig, oArch], [oSingle]) ∧
    sortOrphansDesc [oArch, oOrig] = [oOrig, oArch] :=
  ⟨orphan_classification_spec.1 ["originals", ".DS_Store"] none st0 (by decide),
   orphan_classification_spec.2.1 ["t1.png"] none st0 (by decide),
   (orphan_classification_spec.2.2.1 ["archive", "doc.pdf"] none st0 "archive" "doc.pdf"
      [] rfl (Or.inl rfl) (by decide) (by decide)).trans rfl,
   orphan_classification_spec.2.2.2.1 "originals" none st0 (Or.inr rfl),
   orphan_classification_spec.2.2.2.2.1 "misc" ["x.bin"] none st0 (by decide)
      (by decide) (by decide) (by decide),
   (orphan_classification_spec.2.2.2.2.2.1 demoGroups).trans rfl,
   (orphan_classification_spec.2.2.2.2.2.2 oArch oOrig "docs/" "/a.pdf" "/a.pdf"
      rfl rfl).1⟩

/-! ## `grimoire.unique_file_name` (claim C9)

`REGEX_UNIQUE_FILE = (?P<original_stem>.+)_copy(?P<index>\d+)?` with
`re.IGNORECASE`.  `finditer` scans leftmost-first with a greedy `.+`, so on
any stem it yields exactly one match when the stem has an occurrence of
case-insensitive `_copy` preceded by at least one character: the one whose
`_copy` is the **last** such occurrence, with `index` the maximal digit run
after it.  The loop over `finditer` therefore keeps that single match.
Names are modelled as strings; `path.exists()` is membership in a finite
set of existing names, and `with_name` replaces the whole name.  (Python's
`.` does not match a newline; file names containing newlines are outside
the model.) -/

/-- The characters of the literal `_copy`. -/
def copyL : List Char := ['_', 'c', 'o', 'p', 'y']

/-- Does `s` start with `_copy`, case-insensitively? -/
def copyAt (s : List Char) : Bool :=
  match s with
  | a :: b :: c :: d :: e :: _ =>
    a.toLower = '_' && b.toLower = 'c' && c.toLower = 'o' &&
      d.toLower = 'p' && e.toLower = 'y'
  | _ => false

/-- Largest position of `s` satisfying `p` (index, remaining suffix), found
by preferring the result of the tail. -/
def lastPosAux (p : Nat → List Char → Bool) : List Char → Nat → Option Nat
  | [], _ => none
  | c :: cs, i =>
    match lastPosAux p cs (i + 1) with
    | some j => some j
    | none => if p i (c :: cs) then some i else none

/-- The position of the last case-insensitive `_copy` preceded by at least
one character — the occurrence the greedy regex match selects. -/
def lastCopyIdx (s : List Char) : Option Nat :=
  lastPosAux (fun i t => decide (0 < i) && copyAt t) s 0

/-- Decimal digits of `n`, most significant first, with explicit fuel
(`str(n)`); `n + 1` units of fuel always suffice. -/
def natToCharsAux : Nat → Nat → List Char → List Char
  | 0, _, acc => acc
  | fuel + 1, n, acc =>
    let acc' := Nat.digitChar (n % 10) :: acc
    if n < 10 then acc' else natToCharsAux fuel (n / 10) acc'

/-- Python `str(n)` for a natural number. -/
def natToChars (n : Nat) : List Char := natToCharsAux (n + 1) n []

/-- The loop body of `unique_file_name` on the stem: with no `_copy`
occurrence, append `_copy`; otherwise replace everything from the last
occurrence on by `_copy` followed by the incremented index (`int(d or 0)+1`,
where `d` is the maximal digit run after the occurrence). -/
def stemStep (stem : List Char) : List Char :=
  match lastCopyIdx stem with
  | none => stem ++ copyL
  | some i =>
    let p := stem.take i
    let d := (stem.drop (i + 5)).takeWhile Char.isDigit
    p ++ copyL ++ natToChars (parseNatChars d + 1)

/-- `pathlib`'s split of a file name into `(stem, suffix)`. -/
def splitName (name : List Char) : List Char × List Char :=
  match lastDotPos name with
  | some i =>
    if 0 < i ∧ i < name.length - 1 then (name.take i, name.drop i) else (name, [])
  | none => (name, [])

/-- One iteration of the `unique_file_name` loop on the full name:
`new_name = f"{new_stem}_copy{index}{path.suffix}"` and
`path = path.with_name(new_name)`. -/
def stepName (name : String) : String :=
  ⟨stemStep (splitName name.data).1 ++ (splitName name.data).2⟩

/-- The `while path.exists()` loop, with fuel; `unique_file_name` always
supplies enough fuel for the loop to exit on its own. -/
def uniqueAux : Nat → Finset String → String → String
  | 0, _, name => name
  | fuel + 1, existing, name =>
    if name ∈ existing then uniqueAux fuel existing (stepName name) else name

/-- `grimoire.unique_file_name` over a finite set of existing names. -/
def unique_file_name (existing : Finset String) (name : String) : String :=
  uniqueAux (existing.card + 4) existing name

/-! ### Decimal representation lemmas -/

/-- Proof-side decimal digits of `n` (well-founded recursion). -/
def digitsOf (n : Nat) : List Char :=
  if n < 10 then [Nat.digitChar n]
  else digitsOf (n / 10) ++ [Nat.digitChar (n % 10)]
decreasing_by exact Nat.div_lt_self (by omega) (by omega)

theorem natToCharsAux_eq : ∀ (fuel n : Nat) (acc : List Char), n < 10 ^ (fuel + 1) →
    natToCharsAux (fuel + 1) n acc = digitsOf n ++ acc := by
  intro fuel
  induction fuel with
  | zero =>
    intro n acc h
    have h10 : n < 10 := by simpa using h
    rw [digitsOf, if_pos h10]
    unfold natToCharsAux
    rw [if_pos h10, Nat.mod_eq_of_lt h10]
    rfl
  | succ fuel ih =>
    intro n acc h
    by_cases h10 : n < 10
    · rw [digitsOf, if_pos h10]
      unfold natToCharsAux
      rw [if_pos h10, Nat.mod_eq_of_lt h10]
      rfl
    · rw [digitsOf, if_neg h10]
      unfold natToCharsAux
      rw [if_neg h10]
      have hdiv : n / 10 < 10 ^ (fuel + 1) := by
        rw [Nat.div_lt_iff_lt_mul (by omega : 0 < 10)]
        calc n < 10 ^ (fuel + 1 + 1) := h
        _ = 10 ^ (fuel + 1) * 10 := by ring
      rw [ih (n / 10) (Nat.digitChar (n % 10) :: acc) hdiv]
      simp

theorem natToChars_eq_digitsOf (n : Nat) : natToChars n = digitsOf n := by
  have hlt : n < 10 ^ (n + 1) := by
    calc n < 10 ^ n := Nat.lt_pow_self (by omega) n
    _ ≤ 10 ^ (n + 1) := Nat.pow_le_pow_right (by omega) (by omega)
  rw [natToChars, natToCharsAux_eq n n [] hlt, List.append_nil]

theorem parse_append_singleton (l : List Char) (c : Char) :
    parseNatChars (l ++ [c]) = parseNatChars l * 10 + (c.toNat - 48) := by
  rw [parseNatChars, List.foldl_append]
  rfl

theorem digitVal_digitChar (d : Nat) (h : d < 10) :
    (Nat.digitChar d).toNat - 48 = d := by
  interval_cases d <;> decide

theorem parse_digitsOf (n : Nat) : parseNatChars (digitsOf n) = n := by
  induction n using Nat.strong_induction_on with
  | _ n ih =>
    by_cases h : n < 10
    · rw [digitsOf, if_pos h]
      have hfold : parseNatChars [Nat.digitChar n] =
          0 * 10 + ((Nat.digitChar n).toNat - 48) := rfl
      rw [hfold, digitVal_digitChar n h]
      omega
    · rw [digitsOf, if_neg h, parse_append_singleton,
        ih (n / 10) (Nat.div_lt_self (by omega) (by omega)),
        digitVal_digitChar (n % 10) (Nat.mod_lt n (by omega))]
      omega

theorem parse_natToChars (n : Nat) : parseNatChars (natToChars n) = n := by
  rw [natToChars_eq_digitsOf, parse_digitsOf]

/-- The ten decimal digit characters. -/
def digits09 : List Char := ['0', '1', '2', '3', '4', '5', '6', '7', '8', '9']

theorem digitChar_mem_digits09 (d : Nat) (h : d < 10) :
    Nat.digitChar d ∈ digits09 := by
  interval_cases d <;> decide

theorem digitsOf_subset_digits09 (n : Nat) : ∀ c ∈ digitsOf n, c ∈ digits09 := by
  induction n using Nat.strong_induction_on with
  | _ n ih =>
    by_cases h : n < 10
    · rw [digitsOf, if_pos h]
      intro c hc
      rw [List.mem_singleton] at hc
      rw [hc]
      exact digitChar_mem_digits09 n h
    · rw [digitsOf, if_neg h]
      intro c hc
      rcases List.mem_append.mp hc with hc | hc
      · exact ih (n / 10) (Nat.div_lt_self (by omega) (by omega)) c hc
      · rw [List.mem_singleton] at hc
        rw [hc]
        exact digitChar_mem_digits09 (n % 10) (Nat.mod_lt n (by omega))

theorem natToChars_subset_digits09 (n : Nat) : ∀ c ∈ natToChars n, c ∈ digits09 := by
  rw [natToChars_eq_digitsOf]
  exact digitsOf_subset_digits09 n

theorem digits09_props : ∀ c ∈ digits09,
    c.isDigit = true ∧ c.toLower ≠ '_' ∧ c ≠ '.' := by decide

/-! ### Lemmas about the backwards searches -/

theorem lastPosAux_none (p : Nat → List Char → Bool) :
    ∀ (s : List Char) (i : Nat),
      (∀ j, j < s.length → p (i + j) (s.drop j) = false) →
      lastPosAux p s i = none
  | [], _, _ => rfl
  | c :: cs, i, h => by
    have htail : lastPosAux p cs (i + 1) = none := by
      apply lastPosAux_none p cs (i + 1)
      intro j hj
      have := h (j + 1) (by simpa using Nat.succ_lt_succ hj)
      have harith : i + (j + 1) = i + 1 + j := by omega
      rw [harith] at this
      exact this
    have h0 := h 0 (by simp)
    simp only [Nat.add_zero, List.drop_zero] at h0
    unfold lastPosAux
    rw [htail, h0]
    rfl

theorem lastPosAux_append (p : Nat → List Char → Bool) :
    ∀ (P rest : List Char) (i j : Nat),
      lastPosAux p rest (i + P.length) = some j →
      lastPosAux p (P ++ rest) i = some j
  | [], rest, i, j, h => by simpa using h
  | a :: P, rest, i, j, h => by
    have hrec : lastPosAux p (P ++ rest) (i + 1) = some j := by
      apply lastPosAux_append p P rest (i + 1) j
      have harith : i + 1 + P.length = i + (a :: P).length := by simp; omega
      rw [harith]
      exact h
    show lastPosAux p (a :: (P ++ rest)) i = some j
    unfold lastPosAux
    rw [hrec]

theorem lastPosAux_head (p : Nat → List Char → Bool) (c : Char) (cs : List Char)
    (i : Nat) (htail : lastPosAux p cs (i + 1) = none) (hp : p i (c :: cs) = true) :
    lastPosAux p (c :: cs) i = some i := by
  unfold lastPosAux
  rw [htail, hp]
  rfl

theorem lastPosAux_sound (p : Nat → List Char → Bool) :
    ∀ (s : List Char) (i0 j : Nat), lastPosAux p s i0 = some j →
      ∃ k, k < s.length ∧ j = i0 + k ∧ p j (s.drop k) = true
  | [], _, _, h => by cases h
  | c :: cs, i0, j, h => by
    unfold lastPosAux at h
    rcases htail : lastPosAux p cs (i0 + 1) with _ | j'
    · rw [htail] at h
      by_cases hp : p i0 (c :: cs) = true
      · rw [if_pos hp] at h
        cases h
        exact ⟨0, by simp, by omega, hp⟩
      · rw [if_neg hp] at h
        cases h
    · rw [htail] at h
      have hjj : j' = j := by injection h
      rcases lastPosAux_sound p cs (i0 + 1) j' htail with ⟨k, hk, hjk, hp⟩
      refine ⟨k + 1, by simpa using Nat.succ_lt_succ hk, by omega, ?_⟩
      rw [hjj] at hp
      simpa using hp

theorem lastCopyIdx_sound (s : List Char) (i : Nat) (h : lastCopyIdx s = some i) :
    0 < i ∧ i < s.length ∧ copyAt (s.drop i) = true := by
  rcases lastPosAux_sound _ s 0 i h with ⟨k, hk, hik, hp⟩
  have hik' : i = k := by omega
  subst hik'
  rw [Bool.and_eq_true, decide_eq_true_eq] at hp
  exact ⟨hp.1, hk, hp.2⟩

theorem lastCopyIdx_eq_none (s : List Char)
    (h : ∀ i, 0 < i → i < s.length → copyAt (s.drop i) = false) :
    lastCopyIdx s = none := by
  apply lastPosAux_none
  intro j hj
  rcases j with _ | j'
  · simp
  · rw [Bool.and_eq_false_iff]
    right
    exact h (j' + 1) (by omega) (by simpa using hj)

theorem lastCopyIdx_eq_some (s : List Char) (i : Nat) (hi : 0 < i)
    (hlen : i < s.length) (hat : copyAt (s.drop i) = true)
    (hafter : ∀ iLater, i < iLater → iLater < s.length →
      copyAt (s.drop iLater) = false) :
    lastCopyIdx s = some i := by
  rcases hdrop : s.drop i with _ | ⟨c, cs⟩
  · rw [hdrop] at hat
    cases hat
  have htakelen : (s.take i).length = i := by
    rw [List.length_take]
    omega
  have hinner : lastPosAux (fun k t => decide (0 < k) && copyAt t) (c :: cs) i = some i := by
    apply lastPosAux_head
    · apply lastPosAux_none
      intro j hj
      rw [Bool.and_eq_false_iff]
      right
      have hdropped : cs.drop j = s.drop (i + 1 + j) := by
        have h1 : s.drop (i + 1 + j) = (s.drop i).drop (1 + j) := by
          rw [List.drop_drop]
          congr 1
          omega
        rw [h1, hdrop]
        have h2 : 1 + j = j + 1 := by omega
        rw [h2, List.drop_succ_cons]
      have hlen2 : s.length - i = cs.length + 1 := by
        have := congrArg List.length hdrop
        simpa using this
      rw [hdropped]
      exact hafter (i + 1 + j) (by omega) (by omega)
    · rw [Bool.and_eq_true, decide_eq_true_eq]
      rw [hdrop] at hat
      exact ⟨hi, hat⟩
  have := lastPosAux_append (fun k t => decide (0 < k) && copyAt t) (s.take i)
    (c :: cs) 0 i (by rw [htakelen]; simpa using hinner)
  rw [← hdrop, List.take_append_drop] at this
  exact this

/-! ### Lemmas about `lastDotPos` and `splitName` -/

theorem lastDotPos_eq_none_iff : ∀ l : List Char, lastDotPos l = none ↔ '.' ∉ l
  | [] => by simp [lastDotPos]
  | c :: cs => by
    unfold lastDotPos
    rcases h : lastDotPos cs with _ | j
    · have hcs : '.' ∉ cs := (lastDotPos_eq_none_iff cs).mp h
      by_cases hc : c = '.'
      · simp [hc]
      · simp [hc, hcs, Ne.symm hc]
    · have hcs : '.' ∈ cs := by
        by_contra hn
        rw [← lastDotPos_eq_none_iff cs] at hn
        rw [hn] at h
        cases h
      simp [hcs]

theorem lastDotPos_append_no_dot : ∀ (l1 l2 : List Char), '.' ∉ l2 →
    lastDotPos (l1 ++ l2) = lastDotPos l1
  | [], l2, h => by
    simp only [List.nil_append]
    rw [(lastDotPos_eq_none_iff l2).mpr h]
    rfl
  | c :: l1, l2, h => by
    show lastDotPos (c :: (l1 ++ l2)) = lastDotPos (c :: l1)
    unfold lastDotPos
    rw [lastDotPos_append_no_dot l1 l2 h]

theorem lastDotPos_append_dot : ∀ (l1 l2 : List Char), '.' ∉ l2 →
    lastDotPos (l1 ++ '.' :: l2) = some l1.length
  | [], l2, h => by
    show lastDotPos ('.' :: l2) = some 0
    unfold lastDotPos
    rw [(lastDotPos_eq_none_iff l2).mpr h]
    rfl
  | c :: l1, l2, h => by
    show lastDotPos (c :: (l1 ++ '.' :: l2)) = some (l1.length + 1)
    unfold lastDotPos
    rw [lastDotPos_append_dot l1 l2 h]

theorem lastDotPos_drop : ∀ (l : List Char) (i : Nat), lastDotPos l = some i →
    i < l.length ∧ ∃ rest, l.drop i = '.' :: rest ∧ '.' ∉ rest
  | [], i, h => by cases h
  | c :: cs, i, h => by
    unfold lastDotPos at h
    rcases htail : lastDotPos cs with _ | j
    · rw [htail] at h
      by_cases hc : c = '.'
      · rw [if_pos hc] at h
        cases h
        subst hc
        exact ⟨by simp, cs, rfl, (lastDotPos_eq_none_iff cs).mp htail⟩
      · rw [if_neg hc] at h
        cases h
    · rw [htail] at h
      cases h
      rcases lastDotPos_drop cs j htail with ⟨hlen, rest, hdrop, hnot⟩
      exact ⟨by simpa using Nat.succ_lt_succ hlen, rest, by simpa using hdrop, hnot⟩

theorem splitName_dot (x ext : List Char) (hx : x ≠ []) (hext : ext ≠ [])
    (hnd : '.' ∉ ext) : splitName (x ++ '.' :: ext) = (x, '.' :: ext) := by
  unfold splitName
  rw [lastDotPos_append_dot x ext hnd]
  dsimp only
  have hcond : 0 < x.length ∧ x.length < (x ++ '.' :: ext).length - 1 := by
    constructor
    · exact List.length_pos.mpr hx
    · have : ext.length > 0 := List.length_pos.mpr hext
      simp only [List.length_append, List.length_cons]
      omega
  rw [if_pos hcond, List.take_left, List.drop_left]

theorem splitName_no_dot (x : List Char) (h : '.' ∉ x) : splitName x = (x, []) := by
  unfold splitName
  rw [(lastDotPos_eq_none_iff x).mpr h]

theorem splitName_head_dot (x : List Char) (h : '.' ∉ x) :
    splitName ('.' :: x) = ('.' :: x, []) := by
  unfold splitName
  have : lastDotPos ('.' :: x) = some 0 := by
    have := lastDotPos_append_dot [] x h
    simpa using this
  rw [this]
  simp

theorem splitName_interior (q tail : List Char) (j : Nat)
    (hq : lastDotPos q = some j) (hj : 0 < j) (hnd : '.' ∉ tail)
    (htail : tail ≠ []) :
    splitName (q ++ tail) = (q.take j, q.drop j ++ tail) := by
  have hjq : j < q.length := (lastDotPos_drop q j hq).1
  unfold splitName
  rw [lastDotPos_append_no_dot q tail hnd, hq]
  dsimp only
  have hcond : 0 < j ∧ j < (q ++ tail).length - 1 := by
    refine ⟨hj, ?_⟩
    have : tail.length > 0 := List.length_pos.mpr htail
    simp only [List.length_append]
    omega
  rw [if_pos hcond, List.take_append_of_le_length (by omega),
    List.drop_append_of_le_length (by omega)]

/-- The shape of a suffix `splitName` can return. -/
def sufShape (suf : List Char) : Prop :=
  suf = [] ∨ ∃ ext, suf = '.' :: ext ∧ ext ≠ [] ∧ '.' ∉ ext

theorem sufShape_splitName (name : List Char) : sufShape (splitName name).2 := by
  unfold splitName
  rcases h : lastDotPos name with _ | i
  · left
    rfl
  · dsimp only
    by_cases hcond : 0 < i ∧ i < name.length - 1
    · rw [if_pos hcond]
      rcases lastDotPos_drop name i h with ⟨hlen, rest, hdrop, hnot⟩
      right
      refine ⟨rest, by simpa using hdrop, ?_, hnot⟩
      have := congrArg List.length hdrop
      simp only [List.length_drop, List.length_cons] at this
      intro hrest
      rw [hrest] at this
      simp at this
      omega
    · rw [if_neg hcond]
      left
      rfl

theorem splitName_append (l : List Char) :
    (splitName l).1 ++ (splitName l).2 = l := by
  unfold splitName
  rcases h : lastDotPos l with _ | i
  · simp
  · dsimp only
    by_cases hcond : 0 < i ∧ i < l.length - 1
    · rw [if_pos hcond]
      exact List.take_append_drop i l
    · rw [if_neg hcond]
      simp

/-! ### The step on stems, and the regular regime -/

theorem copyAt_eq_false_of_head : ∀ (t : List Char),
    (∀ c, t.head? = some c → c.toLower ≠ '_') → copyAt t = false
  | [], _ => rfl
  | [_], _ => rfl
  | [_, _], _ => rfl
  | [_, _, _], _ => rfl
  | [_, _, _, _], _ => rfl
  | a :: _ :: _ :: _ :: _ :: _, h => by
    have ha := h a rfl
    simp [copyAt, ha]

theorem copyAt_drop_eq_false (t : List Char) (hall : ∀ c ∈ t, c.toLower ≠ '_')
    (k : Nat) : copyAt (t.drop k) = false := by
  apply copyAt_eq_false_of_head
  intro c hc
  rcases hd : t.drop k with _ | ⟨x, xs⟩
  · rw [hd] at hc
    cases hc
  · rw [hd] at hc
    have hcx : c = x := by
      injection hc with h1
      exact h1.symm
    subst hcx
    refine hall c (List.mem_of_mem_drop (l := t) (n := k) ?_)
    rw [hd]
    exact List.mem_cons_self c xs

theorem cope_no_underscore (e : List Char) (he : ∀ c ∈ e, c ∈ digits09) :
    ∀ c ∈ ('c' :: 'o' :: 'p' :: 'y' :: e), c.toLower ≠ '_' := by
  intro c hc
  simp only [List.mem_cons] at hc
  rcases hc with rfl | rfl | rfl | rfl | hc
  · decide
  · decide
  · decide
  · decide
  · exact ((digits09_props c (he c hc)).2).1

theorem copyAt_copyL_append (t : List Char) : copyAt (copyL ++ t) = true := rfl

theorem takeWhile_digits : ∀ (l : List Char), (∀ c ∈ l, Char.isDigit c = true) →
    l.takeWhile Char.isDigit = l
  | [], _ => rfl
  | c :: cs, h => by
    rw [List.takeWhile_cons, if_pos (h c (List.mem_cons_self c cs))]
    rw [takeWhile_digits cs (fun x hx => h x (List.mem_cons_of_mem c hx))]

theorem stemStep_regular (p e : List Char) (hp : p ≠ [])
    (he : ∀ c ∈ e, c ∈ digits09) :
    stemStep (p ++ copyL ++ e) = p ++ copyL ++ natToChars (parseNatChars e + 1) := by
  have hcope := cope_no_underscore e he
  have hidx : lastCopyIdx (p ++ copyL ++ e) = some p.length := by
    apply lastCopyIdx_eq_some
    · exact List.length_pos.mpr hp
    · simp [copyL]
    · have hdrop : (p ++ copyL ++ e).drop p.length = copyL ++ e := by
        rw [List.append_assoc, List.drop_left]
      rw [hdrop, copyAt_copyL_append]
    · intro iLater hgt hlt
      have hform : p ++ copyL ++ e = p ++ '_' :: ('c' :: 'o' :: 'p' :: 'y' :: e) := by
        rw [List.append_assoc]
        rfl
      have harith : iLater = p.length + (iLater - p.length - 1 + 1) := by omega
      have hdrop2 : (p ++ copyL ++ e).drop iLater =
          ('c' :: 'o' :: 'p' :: 'y' :: e).drop (iLater - p.length - 1) := by
        conv_lhs => rw [hform, harith]
        rw [List.drop_append, List.drop_succ_cons]
      rw [hdrop2]
      exact copyAt_drop_eq_false _ hcope _
  unfold stemStep
  rw [hidx]
  dsimp only
  have htake : (p ++ copyL ++ e).take p.length = p := by
    rw [List.append_assoc, List.take_left]
  have hdrop5 : (p ++ copyL ++ e).drop (p.length + 5) = e := by
    have hl : p.length + 5 = (p ++ copyL).length := by simp [copyL]
    rw [hl, List.drop_left]
  rw [htake, hdrop5, takeWhile_digits e (fun c hc => (digits09_props c (he c hc)).1)]

theorem stemStep_copyhead (e : List Char) (he : ∀ c ∈ e, c ∈ digits09) :
    stemStep (copyL ++ e) = (copyL ++ e) ++ copyL := by
  have hcope := cope_no_underscore e he
  have hidx : lastCopyIdx (copyL ++ e) = none := by
    apply lastCopyIdx_eq_none
    intro i hi hlen
    have hform : copyL ++ e = '_' :: ('c' :: 'o' :: 'p' :: 'y' :: e) := rfl
    have harith : i = i - 1 + 1 := by omega
    have hdrop : (copyL ++ e).drop i = ('c' :: 'o' :: 'p' :: 'y' :: e).drop (i - 1) := by
      conv_lhs => rw [hform, harith]
      rw [List.drop_succ_cons]
    rw [hdrop]
    exact copyAt_drop_eq_false _ hcope _
  unfold stemStep
  rw [hidx]

theorem stemStep_of_none (stem : List Char) (h : lastCopyIdx stem = none) :
    stemStep stem = stem ++ copyL := by
  unfold stemStep
  rw [h]

theorem stemStep_of_some (stem : List Char) (i : Nat) (h : lastCopyIdx stem = some i) :
    stemStep stem = stem.take i ++ copyL ++
      natToChars (parseNatChars ((stem.drop (i + 5)).takeWhile Char.isDigit) + 1) := by
  unfold stemStep
  rw [h]

/-- The names the loop eventually cycles through: a fixed prefix, `_copy`,
a decimal index, and a fixed suffix. -/
def regimeName (P : List Char) (n : Nat) (SUF : List Char) : String :=
  ⟨P ++ copyL ++ natToChars n ++ SUF⟩

/-- The invariant under which `stepName` just increments the index. -/
def Regime (P SUF : List Char) : Prop :=
  P ≠ [] ∧ sufShape SUF ∧ (SUF = [] → '.' ∉ P.drop 1)

theorem no_dot_copyL_nat (n : Nat) : '.' ∉ copyL ++ natToChars n := by
  intro hc
  rcases List.mem_append.mp hc with hc | hc
  · have : ('.' : Char) ∉ copyL := by decide
    exact this hc
  · exact ((digits09_props _ (natToChars_subset_digits09 n _ hc)).2).2 rfl

theorem splitName_regime (P : List Char) (n : Nat) (SUF : List Char)
    (h : Regime P SUF) :
    splitName (P ++ copyL ++ natToChars n ++ SUF) =
      (P ++ copyL ++ natToChars n, SUF) := by
  obtain ⟨hP, hsuf, hdot⟩ := h
  rcases hsuf with h0 | ⟨ext, hext, hene, hed⟩
  · subst h0
    rw [List.append_nil]
    obtain ⟨a, P', rfl⟩ := List.exists_cons_of_ne_nil hP
    have hdot' : '.' ∉ P' := by simpa using hdot rfl
    by_cases ha : a = '.'
    · subst ha
      have hx : '.' ∉ P' ++ (copyL ++ natToChars n) := by
        intro hc
        rcases List.mem_append.mp hc with hc | hc
        · exact hdot' hc
        · exact no_dot_copyL_nat n hc
      have hform : ('.' :: P') ++ copyL ++ natToChars n =
          '.' :: (P' ++ (copyL ++ natToChars n)) := by
        simp [List.cons_append, List.append_assoc]
      rw [hform, splitName_head_dot _ hx]
    · have hx : '.' ∉ (a :: P') ++ copyL ++ natToChars n := by
        intro hc
        rcases List.mem_append.mp hc with hc | hc
        · rcases List.mem_append.mp hc with hc | hc
          · rcases List.mem_cons.mp hc with hc | hc
            · exact ha hc.symm
            · exact hdot' hc
          · have : ('.' : Char) ∉ copyL := by decide
            exact this hc
        · exact ((digits09_props _ (natToChars_subset_digits09 n _ hc)).2).2 rfl
      rw [splitName_no_dot _ hx]
  · subst hext
    have hxne : P ++ copyL ++ natToChars n ≠ [] := by
      simp [copyL, hP]
    exact splitName_dot (P ++ copyL ++ natToChars n) ext hxne hene hed

theorem stepName_regime (P : List Char) (n : Nat) (SUF : List Char)
    (h : Regime P SUF) :
    stepName (regimeName P n SUF) = regimeName P (n + 1) SUF := by
  have hdig := natToChars_subset_digits09 n
  have hdata : (regimeName P n SUF).data = P ++ copyL ++ natToChars n ++ SUF := rfl
  have hsplit := splitName_regime P n SUF h
  show (⟨stemStep (splitName (regimeName P n SUF).data).1 ++
    (splitName (regimeName P n SUF).data).2⟩ : String) = _
  rw [hdata, hsplit]
  dsimp only
  rw [stemStep_regular P (natToChars n) h.1 hdig, parse_natToChars]
  rfl

theorem stepName_regime_iter (P : List Char) (SUF : List Char)
    (h : Regime P SUF) :
    ∀ (j n : Nat), stepName^[j] (regimeName P n SUF) = regimeName P (n + j) SUF := by
  intro j
  induction j with
  | zero => intro n; rfl
  | succ j ih =>
    intro n
    rw [Function.iterate_succ_apply, stepName_regime P n SUF h, ih (n + 1)]
    congr 1
    omega

/-! ### Every name reaches the regular regime in at most three steps -/

theorem stepName_eq (s : String) (st suf : List Char)
    (hsplit : splitName s.data = (st, suf)) :
    stepName s = ⟨stemStep st ++ suf⟩ := by
  show (⟨stemStep (splitName s.data).1 ++ (splitName s.data).2⟩ : String) = _
  rw [hsplit]

theorem stepName_shape (name : String) :
    ∃ (q e suf : List Char), (∀ c ∈ e, c ∈ digits09) ∧ sufShape suf ∧
      stepName name = ⟨q ++ copyL ++ e ++ suf⟩ := by
  have hsuf := sufShape_splitName name.data
  rcases h : lastCopyIdx (splitName name.data).1 with _ | i
  · refine ⟨(splitName name.data).1, [], (splitName name.data).2, by simp, hsuf, ?_⟩
    show (⟨stemStep (splitName name.data).1 ++ (splitName name.data).2⟩ : String) = _
    rw [stemStep_of_none _ h]
    exact congrArg String.mk (by simp)
  · refine ⟨(splitName name.data).1.take i,
      natToChars (parseNatChars
        (((splitName name.data).1.drop (i + 5)).takeWhile Char.isDigit) + 1),
      (splitName name.data).2, natToChars_subset_digits09 _, hsuf, ?_⟩
    show (⟨stemStep (splitName name.data).1 ++ (splitName name.data).2⟩ : String) = _
    rw [stemStep_of_some _ i h]

theorem copyL_append_ne_nil (q e : List Char) : q ++ copyL ++ e ≠ [] := by
  simp [copyL]

theorem take_ne_nil_of_pos (l : List Char) (i : Nat) (hi : 0 < i) (hl : i ≤ l.length) :
    l.take i ≠ [] := by
  have : (l.take i).length = i := by
    rw [List.length_take]
    omega
  intro hc
  rw [hc] at this
  simp at this
  omega

theorem reach_regime_from_shape (q e suf : List Char)
    (hde : ∀ c ∈ e, c ∈ digits09) (hsuf : sufShape suf) :
    ∃ (k : Nat) (P : List Char) (n : Nat) (SUF : List Char), k ≤ 2 ∧ Regime P SUF ∧
      stepName^[k] ⟨q ++ copyL ++ e ++ suf⟩ = regimeName P n SUF := by
  have hiter2 : ∀ x : String, stepName^[2] x = stepName (stepName x) := by
    intro x
    rw [Function.iterate_succ_apply, Function.iterate_one]
  rcases hsuf with hs0 | ⟨ext, hedef, hene, hednd⟩
  · -- no suffix
    subst hs0
    rcases hdotq : lastDotPos q with _ | j
    · -- no dot anywhere in q
      have hqnd : '.' ∉ q := (lastDotPos_eq_none_iff q).mp hdotq
      have hx : '.' ∉ q ++ copyL ++ e := by
        intro hc
        rcases List.mem_append.mp hc with hc | hc
        · rcases List.mem_append.mp hc with hc | hc
          · exact hqnd hc
          · have : ('.' : Char) ∉ copyL := by decide
            exact this hc
        · exact ((digits09_props _ (hde _ hc)).2).2 rfl
      rcases hq : q with _ | ⟨a, q'⟩
      · -- q = []: two steps
        subst hq
        refine ⟨2, copyL ++ e, 1, [], by omega, ⟨by simp [copyL], Or.inl rfl, ?_⟩, ?_⟩
        · intro _ hc
          have hmem := List.mem_of_mem_drop hc
          rcases List.mem_append.mp hmem with hm | hm
          · have : ('.' : Char) ∉ copyL := by decide
            exact this hm
          · exact ((digits09_props _ (hde _ hm)).2).2 rfl
        · rw [hiter2]
          have hs1 : stepName ⟨[] ++ copyL ++ e ++ []⟩ = ⟨(copyL ++ e) ++ copyL⟩ := by
            rw [stepName_eq _ (copyL ++ e) []
              (by rw [show ((⟨[] ++ copyL ++ e ++ []⟩ : String)).data =
                copyL ++ e from by simp]
                  exact splitName_no_dot _ (by simpa using hx))]
            rw [stemStep_copyhead e hde]
            exact congrArg String.mk (by simp)
          rw [hs1]
          have hx2 : '.' ∉ (copyL ++ e) ++ copyL := by
            intro hc
            rcases List.mem_append.mp hc with hc | hc
            · rcases List.mem_append.mp hc with hc | hc
              · have : ('.' : Char) ∉ copyL := by decide
                exact this hc
              · exact ((digits09_props _ (hde _ hc)).2).2 rfl
            · have : ('.' : Char) ∉ copyL := by decide
              exact this hc
          rw [stepName_eq _ ((copyL ++ e) ++ copyL) []
            (by exact splitName_no_dot _ hx2)]
          have : stemStep ((copyL ++ e) ++ copyL) =
              (copyL ++ e) ++ copyL ++ natToChars 1 := by
            have h0 : (copyL ++ e) ++ copyL = (copyL ++ e) ++ copyL ++ [] := by simp
            rw [h0, stemStep_regular (copyL ++ e) [] (by simp [copyL]) (by simp)]
            simp [parseNatChars]
          rw [this]
          exact congrArg String.mk (by simp [regimeName])
      · -- q ≠ []: one step
        subst hq
        refine ⟨1, a :: q', parseNatChars e + 1, [], by omega,
          ⟨by simp, Or.inl rfl, fun _ hc =>
            hqnd (List.mem_of_mem_drop hc)⟩, ?_⟩
        rw [Function.iterate_one]
        rw [stepName_eq _ ((a :: q') ++ copyL ++ e) []
          (by rw [show ((⟨(a :: q') ++ copyL ++ e ++ []⟩ : String)).data =
              (a :: q') ++ copyL ++ e from by simp]
              exact splitName_no_dot _ hx)]
        rw [stemStep_regular (a :: q') e (by simp) hde]
        exact congrArg String.mk (by simp [regimeName])
    · -- q has a last dot at j
      rcases Nat.eq_zero_or_pos j with rfl | hj
      · -- dot only at the head of q
        rcases lastDotPos_drop q 0 hdotq with ⟨hlen, rest, hdropq, hrestnd⟩
        simp only [List.drop_zero] at hdropq
        subst hdropq
        have hx : '.' ∉ rest ++ (copyL ++ e) := by
          intro hc
          rcases List.mem_append.mp hc with hc | hc
          · exact hrestnd hc
          · rcases List.mem_append.mp hc with hc | hc
            · have : ('.' : Char) ∉ copyL := by decide
              exact this hc
            · exact ((digits09_props _ (hde _ hc)).2).2 rfl
        refine ⟨1, '.' :: rest, parseNatChars e + 1, [], by omega,
          ⟨by simp, Or.inl rfl, fun _ => by simpa using hrestnd⟩, ?_⟩
        rw [Function.iterate_one]
        rw [stepName_eq _ (('.' :: rest) ++ copyL ++ e) []
          (by rw [show ((⟨('.' :: rest) ++ copyL ++ e ++ []⟩ : String)).data =
              '.' :: (rest ++ (copyL ++ e)) from by simp]
              have := splitName_head_dot (rest ++ (copyL ++ e)) hx
              rw [this]
              exact congrArg (fun l => (l, ([] : List Char))) (by simp))]
        rw [stemStep_regular ('.' :: rest) e (by simp) hde]
        exact congrArg String.mk (by simp [regimeName])
      · -- interior dot: split moves part of q into the suffix
        rcases lastDotPos_drop q j hdotq with ⟨hjlen, restq, hdropq, hrestnd⟩
        have hnd2 : '.' ∉ copyL ++ e := by
          intro hc
          rcases List.mem_append.mp hc with hc | hc
          · have : ('.' : Char) ∉ copyL := by decide
            exact this hc
          · exact ((digits09_props _ (hde _ hc)).2).2 rfl
        have hsplit1 : splitName (q ++ copyL ++ e) =
            (q.take j, q.drop j ++ (copyL ++ e)) := by
          rw [List.append_assoc]
          exact splitName_interior q (copyL ++ e) j hdotq hj hnd2 (by simp [copyL])
        have hsufshape : q.drop j ++ (copyL ++ e) = '.' :: (restq ++ (copyL ++ e)) := by
          rw [hdropq]
          simp
        have hext1nd : '.' ∉ restq ++ (copyL ++ e) := by
          intro hc
          rcases List.mem_append.mp hc with hc | hc
          · exact hrestnd hc
          · exact hnd2 hc
        have hstem1ne : q.take j ≠ [] := take_ne_nil_of_pos q j hj (by omega)
        rcases hcidx : lastCopyIdx (q.take j) with _ | i
        · -- no _copy in the new stem: two steps
          refine ⟨2, q.take j, 1, q.drop j ++ (copyL ++ e), by omega,
            ⟨hstem1ne, Or.inr ⟨restq ++ (copyL ++ e), hsufshape, by simp [copyL],
              hext1nd⟩, by intro hc; rw [hc] at hsufshape; cases hsufshape⟩, ?_⟩
          rw [hiter2]
          have hs1 : stepName ⟨q ++ copyL ++ e ++ []⟩ =
              ⟨(q.take j ++ copyL) ++ (q.drop j ++ (copyL ++ e))⟩ := by
            rw [stepName_eq _ (q.take j) (q.drop j ++ (copyL ++ e))
              (by rw [show ((⟨q ++ copyL ++ e ++ []⟩ : String)).data =
                  q ++ copyL ++ e from by simp]
                  exact hsplit1)]
            rw [stemStep_of_none _ hcidx]
          rw [hs1]
          rw [stepName_eq _ (q.take j ++ copyL) (q.drop j ++ (copyL ++ e))
            (by rw [show ((⟨(q.take j ++ copyL) ++ (q.drop j ++ (copyL ++ e))⟩ :
                String)).data = (q.take j ++ copyL) ++ (q.drop j ++ (copyL ++ e))
                from rfl, hsufshape]
                exact splitName_dot (q.take j ++ copyL) (restq ++ (copyL ++ e))
                  (by simp [copyL]) (by simp [copyL]) hext1nd)]
          have : stemStep (q.take j ++ copyL) =
              q.take j ++ copyL ++ natToChars 1 := by
            have h0 : q.take j ++ copyL = q.take j ++ copyL ++ [] := by simp
            rw [h0, stemStep_regular (q.take j) [] hstem1ne (by simp)]
            simp [parseNatChars]
          rw [this]
          exact congrArg String.mk (by simp [regimeName])
        · -- _copy found in the new stem: one step
          rcases lastCopyIdx_sound _ i hcidx with ⟨hipos, hilen, _⟩
          refine ⟨1, (q.take j).take i,
            parseNatChars (((q.take j).drop (i + 5)).takeWhile Char.isDigit) + 1,
            q.drop j ++ (copyL ++ e), by omega,
            ⟨take_ne_nil_of_pos _ i hipos (by omega),
              Or.inr ⟨restq ++ (copyL ++ e), hsufshape, by simp [copyL], hext1nd⟩,
              by intro hc; rw [hc] at hsufshape; cases hsufshape⟩, ?_⟩
          rw [Function.iterate_one]
          rw [stepName_eq _ (q.take j) (q.drop j ++ (copyL ++ e))
            (by rw [show ((⟨q ++ copyL ++ e ++ []⟩ : String)).data =
                q ++ copyL ++ e from by simp]
                exact hsplit1)]
          rw [stemStep_of_some _ i hcidx]
          rfl
  · -- dotted suffix present: it survives every step
    subst hedef
    have hsplit : splitName (q ++ copyL ++ e ++ '.' :: ext) =
        (q ++ copyL ++ e, '.' :: ext) :=
      splitName_dot (q ++ copyL ++ e) ext (copyL_append_ne_nil q e) hene hednd
    rcases hq : q with _ | ⟨a, q'⟩
    · -- q = []: two steps
      subst hq
      refine ⟨2, copyL ++ e, 1, '.' :: ext, by omega,
        ⟨by simp [copyL], Or.inr ⟨ext, rfl, hene, hednd⟩, by intro hc; cases hc⟩, ?_⟩
      rw [hiter2]
      have hs1 : stepName ⟨[] ++ copyL ++ e ++ '.' :: ext⟩ =
          ⟨((copyL ++ e) ++ copyL) ++ '.' :: ext⟩ := by
        rw [stepName_eq _ (copyL ++ e) ('.' :: ext)
          (by rw [show ((⟨[] ++ copyL ++ e ++ '.' :: ext⟩ : String)).data =
              [] ++ copyL ++ e ++ '.' :: ext from rfl]
              exact hsplit)]
        rw [stemStep_copyhead e hde]
      rw [hs1]
      rw [stepName_eq _ ((copyL ++ e) ++ copyL) ('.' :: ext)
        (splitName_dot ((copyL ++ e) ++ copyL) ext (by simp [copyL]) hene hednd)]
      have : stemStep ((copyL ++ e) ++ copyL) =
          (copyL ++ e) ++ copyL ++ natToChars 1 := by
        have h0 : (copyL ++ e) ++ copyL = (copyL ++ e) ++ copyL ++ [] := by simp
        rw [h0, stemStep_regular (copyL ++ e) [] (by simp [copyL]) (by simp)]
        simp [parseNatChars]
      rw [this]
      exact congrArg String.mk (by simp [regimeName])
    · -- q ≠ []: one step
      subst hq
      refine ⟨1, a :: q', parseNatChars e + 1, '.' :: ext, by omega,
        ⟨by simp, Or.inr ⟨ext, rfl, hene, hednd⟩, by intro hc; cases hc⟩, ?_⟩
      rw [Function.iterate_one]
      rw [stepName_eq _ ((a :: q') ++ copyL ++ e) ('.' :: ext) hsplit]
      rw [stemStep_regular (a :: q') e (by simp) hde]
      rfl

theorem reach_regime (name : String) :
    ∃ (k : Nat) (P : List Char) (n : Nat) (SUF : List Char), k ≤ 3 ∧ Regime P SUF ∧
      stepName^[k] name = regimeName P n SUF := by
  rcases stepName_shape name with ⟨q, e, suf, hde, hsuf, hshape⟩
  rcases reach_regime_from_shape q e suf hde hsuf with ⟨k, P, n, SUF, hk, hreg, hiter⟩
  refine ⟨k + 1, P, n, SUF, by omega, hreg, ?_⟩
  rw [Function.iterate_succ_apply, hshape, hiter]

theorem regimeName_inj (P SUF : List Char) (a b : Nat)
    (h : regimeName P a SUF = regimeName P b SUF) : a = b := by
  have hdata : P ++ copyL ++ natToChars a ++ SUF = P ++ copyL ++ natToChars b ++ SUF :=
    congrArg String.data h
  have h3 := List.append_cancel_right hdata
  have h2 : natToChars a = natToChars b := List.append_cancel_left h3
  have h4 := congrArg parseNatChars h2
  rwa [parse_natToChars, parse_natToChars] at h4

theorem escape_exists (existing : Finset String) (name : String) :
    ∃ k, k ≤ existing.card + 3 ∧ stepName^[k] name ∉ existing := by
  rcases reach_regime name with ⟨k0, P, n, SUF, hk0, hreg, hiter⟩
  by_contra hcon
  push_neg at hcon
  have hmem : ∀ j, j ≤ existing.card → regimeName P (n + j) SUF ∈ existing := by
    intro j hj
    have h1 : stepName^[j + k0] name = regimeName P (n + j) SUF := by
      rw [Function.iterate_add_apply, hiter, stepName_regime_iter P SUF hreg j n]
    rw [← h1]
    exact hcon (j + k0) (by omega)
  have hmaps : ∀ j ∈ Finset.range (existing.card + 1),
      regimeName P (n + j) SUF ∈ existing := by
    intro j hj
    have hj2 : j < existing.card + 1 := Finset.mem_range.mp hj
    exact hmem j (by omega)
  have hinj : Set.InjOn (fun j => regimeName P (n + j) SUF)
      (Finset.range (existing.card + 1)) := by
    intro a _ b _ hab
    have := regimeName_inj P SUF (n + a) (n + b) hab
    omega
  have hcard := Finset.card_le_card_of_injOn _ hmaps hinj
  rw [Finset.card_range] at hcard
  omega

theorem uniqueAux_eq_iterate :
    ∀ (fuel : Nat) (existing : Finset String) (name : String) (k : Nat), k ≤ fuel →
      (∀ j, j < k → stepName^[j] name ∈ existing) →
      stepName^[k] name ∉ existing →
      uniqueAux fuel existing name = stepName^[k] name := by
  intro fuel
  induction fuel with
  | zero =>
    intro existing name k hk _ _
    have hk0 : k = 0 := by omega
    subst hk0
    rfl
  | succ fuel ih =>
    intro existing name k hk hin hout
    rcases Nat.eq_zero_or_pos k with rfl | hpos
    · have hnot : name ∉ existing := by simpa using hout
      simp only [uniqueAux]
      rw [if_neg hnot]
      rfl
    · have hname : name ∈ existing := by simpa using hin 0 hpos
      simp only [uniqueAux]
      rw [if_pos hname]
      have heq : ∀ j, stepName^[j] (stepName name) = stepName^[j + 1] name := by
        intro j
        rw [Function.iterate_succ_apply]
      have hks : stepName^[k] name = stepName^[k - 1] (stepName name) := by
        rw [heq (k - 1)]
        congr 1
        omega
      rw [hks]
      exact ih existing (stepName name) (k - 1) (by omega)
        (fun j hj => by rw [heq j]; exact hin (j + 1) (by omega))
        (by rw [← hks]; exact hout)

/-- C9: `unique_file_name` terminates within its fuel for every finite set of existing
names and returns a name absent from the set; a name not in the set is returned
unchanged; every loop iteration yields a strictly different candidate; but the
per-iteration rewriting acts on the LAST case-insensitive "_copy" occurrence at a
positive position of the stem, not only on a "_copy"/"_copy<digits>" ending: a stem
with no such occurrence gains the suffix "_copy", and a stem whose last occurrence is
at position i is rewritten to its first i characters plus "_copy" plus the successor
of the digit run following the occurrence, discarding everything after that run. -/
theorem unique_file_name_spec :
    (∀ (existing : Finset String) (name : String),
      unique_file_name existing name ∉ existing) ∧
    (∀ (existing : Finset String) (name : String), name ∉ existing →
      unique_file_name existing name = name) ∧
    (∀ name : String, stepName name ≠ name) ∧
    (∀ stem : List Char,
      (∀ i, 0 < i → i < stem.length → copyAt (stem.drop i) = false) →
      stemStep stem = stem ++ copyL) ∧
    (∀ (stem : List Char) (i : Nat), 0 < i → i < stem.length →
      copyAt (stem.drop i) = true →
      (∀ iLater, i < iLater → iLater < stem.length → copyAt (stem.drop iLater) = false) →
      stemStep stem = stem.take i ++ copyL ++
        natToChars (parseNatChars ((stem.drop (i + 5)).takeWhile Char.isDigit) + 1)) := by
  refine ⟨?_, ?_, ?_, ?_, ?_⟩
  · intro existing name
    rcases escape_exists existing name with ⟨k, hk, hout⟩
    have hex : ∃ k, stepName^[k] name ∉ existing := ⟨k, hout⟩
    have hspec := Nat.find_spec hex
    have hmin : ∀ j, j < Nat.find hex → stepName^[j] name ∈ existing := by
      intro j hj
      exact not_not.mp (Nat.find_min hex hj)
    have hle : Nat.find hex ≤ existing.card + 4 :=
      le_trans (le_trans (Nat.find_min' hex hout) hk) (by omega)
    have hval := uniqueAux_eq_iterate (existing.card + 4) existing name
      (Nat.find hex) hle hmin hspec
    show uniqueAux (existing.card + 4) existing name ∉ existing
    rw [hval]
    exact hspec
  · intro existing name h
    show uniqueAux (existing.card + 4) existing name = name
    have hval := uniqueAux_eq_iterate (existing.card + 4) existing name 0 (by omega)
      (fun j hj => absurd hj (by omega)) (by simpa using h)
    simpa using hval
  · intro name heq
    rcases hs : splitName name.data with ⟨st, suf⟩
    have hstep := stepName_eq name st suf hs
    rw [hstep] at heq
    have happ := splitName_append name.data
    rw [hs] at happ
    have hdata : stemStep st ++ suf = st ++ suf := by
      rw [happ]
      exact congrArg String.data heq
    have hst : stemStep st = st := List.append_cancel_right hdata
    rcases hci : lastCopyIdx st with _ | i
    · rw [stemStep_of_none st hci] at hst
      have hlen := congrArg List.length hst
      simp [copyL] at hlen
    · rw [stemStep_of_some st i hci] at hst
      have htd := List.take_append_drop i st
      have hassoc : st.take i ++ (copyL ++
          natToChars (parseNatChars ((st.drop (i + 5)).takeWhile Char.isDigit) + 1)) =
          st.take i ++ st.drop i := by
        rw [← List.append_assoc, hst, htd]
      have hcn := List.append_cancel_left hassoc
      have hd5 : st.drop (i + 5) =
          natToChars (parseNatChars ((st.drop (i + 5)).takeWhile Char.isDigit) + 1) := by
        have h1 : st.drop (i + 5) = (st.drop i).drop 5 := by
          rw [List.drop_drop]
        conv_lhs => rw [h1, ← hcn]
        simp [copyL]
      have htw : (st.drop (i + 5)).takeWhile Char.isDigit =
          natToChars (parseNatChars ((st.drop (i + 5)).takeWhile Char.isDigit) + 1) := by
        conv_lhs => rw [hd5]
        apply takeWhile_digits
        intro c hc
        exact (digits09_props c (natToChars_subset_digits09 _ c hc)).1
      have hparse := congrArg parseNatChars htw
      rw [parse_natToChars] at hparse
      omega
  · intro stem h
    exact stemStep_of_none stem (lastCopyIdx_eq_none stem h)
  · intro stem i h1 h2 h3 h4
    exact stemStep_of_some stem i (lastCopyIdx_eq_some stem i h1 h2 h3 h4)

/-- C9 counterexample: the claim's per-iteration rule says a stem not ending in
"_copy" or "_copy<digits>" (such as "a_copy2b") just gains the suffix "_copy",
predicting "a_copy2b_copy.txt"; the regex search of the code instead rewrites at the
last "_copy" occurrence and produces "a_copy3.txt". -/
theorem unique_file_name_last_occurrence :
    unique_file_name {"a_copy2b.txt"} "a_copy2b.txt" = "a_copy3.txt" ∧
    stepName "a_copy2b.txt" = "a_copy3.txt" ∧
    stepName "a_copy2b.txt" ≠ "a_copy2b_copy.txt" := by
  refine ⟨by decide, by decide, by decide⟩

/-- Witness for the amended C9: evaluating the theorem's conditional parts at concrete
inputs. -/
theorem unique_file_name_spec_witness :
    unique_file_name {"a.txt"} "b.txt" = "b.txt" ∧
    stemStep "ab".data = "ab".data ++ copyL ∧
    stemStep "a_copy2b".data = "a_copy2b".data.take 1 ++ copyL ++
      natToChars (parseNatChars (("a_copy2b".data.drop 6).takeWhile Char.isDigit) + 1) :=
  ⟨unique_file_name_spec.2.1 {"a.txt"} "b.txt" (by decide),
   unique_file_name_spec.2.2.2.1 "ab".data (by
     intro i h1 h2
     have h2' : i < 2 := h2
     interval_cases i
     · decide),
   unique_file_name_spec.2.2.2.2 "a_copy2b".data 1 (by decide) (by decide) (by decide) (by
     intro iLater h1 h2
     have h2' : iLater < 8 := h2
     interval_cases iLater <;> decide)⟩

end Conjuring
